import Mathlib

/-!
# fig2bash: compose services to launch scripts

A shallow embedding of `main.go`.  Go strings are modelled by `String`; the
only byte the program inspects is the ASCII colon, which never occurs inside a
multi-byte UTF-8 sequence, so splitting on the character `':'` agrees with
splitting on the byte.  The package-level variables set from the command line
are passed explicitly as a `Globals` record.  A Go run-time panic (an index out
of range) is the result `none`.
-/

namespace Fig2Bash

/-! ## Data model -/

/-- The package-level variables `appName`, `composePath`, `outputPath` and
`dockerHostConn`, filled once from the command-line flags. -/
structure Globals where
  appName : String
  composePath : String
  outputPath : String
  dockerHostConn : String
  deriving DecidableEq, Repr

/-- The `Service` struct.  `Environment` is a Go `map[string]string`; it is
modelled by the list of its key/value entries. -/
structure Service where
  Name : String
  Image : String
  Ports : List String
  Volumes : List String
  Links : List String
  Privileged : Bool
  Command : String
  Environment : List (String × String)
  deriving DecidableEq, Repr

/-- The `ScriptDataTemplate` struct. -/
structure ScriptDataTemplate where
  AppName : String
  DockerHostConnCmdArg : String
  Service : Service
  deriving DecidableEq, Repr

/-- The zero value of `Service`. -/
def Service.zero : Service :=
  { Name := "", Image := "", Ports := [], Volumes := [], Links := [],
    Privileged := false, Command := "", Environment := [] }

/-! ## `strings.Split` with a one-byte separator -/

/-- The pieces of `s` between the occurrences of `sep`: the loop of Go's
`genSplit` cuts at the first separator and goes on with the rest, and the text
after the last separator (the whole text when there is none) is the last
piece. -/
def splitChars (sep : Char) : List Char → List (List Char)
  | [] => [[]]
  | c :: cs =>
    if c = sep then [] :: splitChars sep cs
    else
      match splitChars sep cs with
      | [] => [[c]]
      | p :: ps => (c :: p) :: ps

/-- Go's `strings.Split(s, sep)` for a separator of one byte. -/
def Split (s : String) (sep : Char) : List String :=
  (splitChars sep s.data).map String.mk

/-! ## The record transformer -/

/-- The body of the loop of `setLinksWithAppName` for one entry:
`links := strings.Split(entry, ":")`, `containerName := links[0]`, the alias
is `links[1]` when `len(links) > 1` and `containerName + "_1"` otherwise, and
the new entry is `fmt.Sprintf("%s-%s_1:%s", appName, containerName,
containerAlias)`.  An index out of range is `none`. -/
def rewriteLinkEntry (appName entry : String) : Option String := do
  let links := Split entry ':'
  let containerName ← links[0]?
  let containerAlias ←
    if links.length > 1 then links[1]? else some (containerName ++ "_1")
  pure (appName ++ "-" ++ containerName ++ "_1:" ++ containerAlias)

/-- The loop `for i := range service.Links`: `k` iterations are left, `i` is
the current index, and each iteration overwrites `links[i]` in place. -/
def linksLoop (appName : String) : Nat → Nat → List String → Option (List String)
  | 0, _, links => some links
  | k + 1, i, links => do
    let entry ← links[i]?
    let r ← rewriteLinkEntry appName entry
    linksLoop appName k (i + 1) (links.set i r)

/-- The function `setLinksWithAppName`: the record after the call. -/
def setLinksWithAppName (g : Globals) (service : Service) : Option Service := do
  let links ← linksLoop g.appName service.Links.length 0 service.Links
  pure { service with Links := links }

/-- The function `buildScriptDataTemplate`. -/
def buildScriptDataTemplate (g : Globals) (serviceName : String) (service : Service) :
    Option ScriptDataTemplate := do
  let data : ScriptDataTemplate :=
    { AppName := g.appName, DockerHostConnCmdArg := "", Service := Service.zero }
  let data :=
    if g.dockerHostConn ≠ "" then
      { data with DockerHostConnCmdArg := "--host=" ++ g.dockerHostConn }
    else data
  let service := { service with Name := g.appName ++ "-" ++ serviceName }
  let service ← setLinksWithAppName g service
  pure { data with Service := service }

/-! ## The script template -/

/-- The concatenation of a list of strings. -/
def concatAll : List String → String
  | [] => ""
  | s :: ss => s ++ concatAll ss

/-- The order in which `text/template` visits a map in `range`: by key. -/
def rangeMap (m : List (String × String)) : List (String × String) :=
  m.insertionSort (fun a b => a.1 ≤ b.1)

/-- The lines 31 to 39 of `main.go`, the part of the template after `run \`: the
flags, the image and the command of the container.  They read the service
only. -/
def runFlagLines (sv : Service) : List String :=
  [ "  " ++ (if sv.Privileged then "--privileged=true " else "") ++ " \\",
    "  --restart=always \\",
    "  -d \\",
    "  --name " ++ sv.Name ++ "_1 \\",
    "  " ++ concatAll (sv.Volumes.map fun v => "-v " ++ v ++ " ") ++ " \\",
    "  " ++ concatAll (sv.Links.map fun l => "--link " ++ l ++ " ") ++ " \\",
    "  " ++ concatAll ((rangeMap sv.Environment).map fun kv =>
        "-e " ++ kv.1 ++ "=\"" ++ kv.2 ++ "\" ") ++ " \\",
    "  " ++ concatAll (sv.Ports.map fun p => "-p " ++ p ++ " ") ++ " \\",
    "  " ++ sv.Image ++ "  " ++ sv.Command ]

/-- The text `t.Execute` produces for the constant `bashTemplate`, one entry per
line of the template (lines 23 to 39 of `main.go`, without the newline that
ends each).  `text/template` writes string fields as they are, `if` on a
boolean keeps or drops its body, and `range` repeats its body for each
element. -/
def bashTemplateLines (d : ScriptDataTemplate) : List String :=
  [ "#!/bin/bash",
    "/usr/bin/docker " ++ d.DockerHostConnCmdArg ++ " pull " ++ d.Service.Image,
    "",
    "if /usr/bin/docker " ++ d.DockerHostConnCmdArg ++ " ps | grep --quiet "
      ++ d.Service.Name ++ "_1 ; then",
    "    /usr/bin/docker " ++ d.DockerHostConnCmdArg ++ " rm -f " ++ d.Service.Name ++ "_1",
    "fi",
    "",
    "/usr/bin/docker " ++ d.DockerHostConnCmdArg ++ " run \\" ]
  ++ runFlagLines d.Service

/-- Each template line followed by its newline, all in one text. -/
def unlines (ls : List String) : String :=
  concatAll (ls.map fun l => l ++ "\n")

/-- The script rendered from `bashTemplate` for the context `d`. -/
def bashTemplate (d : ScriptDataTemplate) : String :=
  unlines (bashTemplateLines d)

/-- The `run` invocation of the rendered script: template lines 30 to 39. -/
def runCommand (d : ScriptDataTemplate) : String :=
  unlines ((bashTemplateLines d).drop 7)

/-- The text `t` occurs in the text `s`. -/
def occursIn (t s : String) : Prop :=
  t.data <:+: s.data

instance (t s : String) : Decidable (occursIn t s) :=
  inferInstanceAs (Decidable (t.data <:+: s.data))

/-- The text `s` is not empty and its first character does not occur in `t`. -/
def startsOutside (t s : String) : Bool :=
  match s.data.head? with
  | some c => !(t.data.contains c)
  | none => false

/-- The text `s` is not empty and its last character does not occur in `t`. -/
def endsOutside (t s : String) : Bool :=
  match s.data.getLast? with
  | some c => !(t.data.contains c)
  | none => false

/-- A text without an occurrence of `t` that ends with a character foreign to
`t`: no occurrence can start in it and go on into what is appended. -/
def Closed (t s : String) : Prop :=
  ¬ occursIn t s ∧ endsOutside t s = true

/-- The texts a service contributes to the rendered script. -/
def serviceTexts (sv : Service) : List String :=
  sv.Name :: sv.Image :: sv.Command :: (sv.Volumes ++ sv.Links ++ sv.Ports
    ++ sv.Environment.map (fun kv => kv.1) ++ sv.Environment.map (fun kv => kv.2))

/-! ## `path.Join` -/

/-- One step of `path.Clean` on the stack of kept elements (top first): empty
and `.` elements are dropped, `..` removes the last kept real element, is kept
when the path is not rooted and nothing can be removed, and is dropped at the
root; every other element is kept. -/
def cleanStep (rooted : Bool) (stack : List (List Char)) (e : List Char) :
    List (List Char) :=
  if e = [] ∨ e = ['.'] then stack
  else if e = ['.', '.'] then
    match stack with
    | top :: rest =>
      if top = ['.', '.'] then e :: stack else rest
    | [] => if rooted then [] else [e]
  else e :: stack

/-- Go's `path.Clean`. -/
def Clean (path : String) : String :=
  if path = "" then "."
  else
    let rooted := path.data.head? = some '/'
    let stack := (splitChars '/' path.data).foldl (cleanStep rooted) []
    let out := (if rooted then "/" else "")
      ++ "/".intercalate (stack.reverse.map String.mk)
    if out = "" then "." else out

/-- Go's `path.Join`: the elements from the first non-empty one on, joined by
slashes and cleaned; the empty string when every element is empty. -/
def Join (elem : List String) : String :=
  match elem.dropWhile (fun e => e = "") with
  | [] => ""
  | es => Clean ("/".intercalate es)

/-! ## The script emitter -/

/-- The part of the file system the emitter sees: which paths `os.Create` can
create, which created files accept writes, and the files written so far (the
latest first), each with its content. -/
structure FileSystem where
  canCreate : String → Bool
  canWrite : String → Bool
  files : List (String × String)

/-- A Go `error` value: `none` is `nil`. -/
abbrev GoError := Option String

/-- The call `os.Create(name)`: the file is created or truncated and its handle
returned, or the handle is `nil` and the error is set. -/
def osCreate (fs : FileSystem) (name : String) : FileSystem × Option String × GoError :=
  if fs.canCreate name then
    ({ fs with files := (name, "") :: fs.files }, some name, none)
  else (fs, none, some ("open " ++ name ++ ": cannot create"))

/-- The call `t.Execute(f, data)`: the rendered script is written to `f`; a
`nil` handle or a failing write gives an error. -/
def execute (fs : FileSystem) (f : Option String) (data : ScriptDataTemplate) :
    FileSystem × GoError :=
  match f with
  | none => (fs, some "invalid argument")
  | some name =>
    if fs.canWrite name then
      ({ fs with files := (name, bashTemplate data) :: fs.files }, none)
    else (fs, some ("write " ++ name ++ ": cannot write"))

/-- The error of `t.Parse(bashTemplate)`: the constant is a well-formed
template, so it is `nil`. -/
def parseBashTemplate : GoError := none

/-- The loop of `saveToBash` over the services in their iteration order: both
the error of `os.Create` and that of `t.Execute` are dropped. -/
def saveLoop (g : Globals) : FileSystem → List (String × Service) → Option FileSystem
  | fs, [] => some fs
  | fs, (name, service) :: rest => do
    let data ← buildScriptDataTemplate g name service
    let (fs, f, _) := osCreate fs (Join [g.outputPath, data.Service.Name ++ ".1.sh"])
    let (fs, _) := execute fs f data
    saveLoop g fs rest

/-- The function `saveToBash`: the file system after the call and the returned
error.  `services` lists the map in the order the `range` visits it. -/
def saveToBash (g : Globals) (fs : FileSystem) (services : List (String × Service)) :
    Option (FileSystem × GoError) :=
  match parseBashTemplate with
  | some e => some (fs, some e)
  | none => do
    let fs ← saveLoop g fs services
    pure (fs, none)

/-! ## Closed forms used by the proofs -/

/-- The entry `rewriteLinkEntry` computes, read off the pieces of the split:
the first piece is the target and the second piece, when there is one, the
alias. -/
def rewrittenEntry (appName entry : String) : String :=
  match splitChars ':' entry.data with
  | [] => appName ++ "-" ++ "" ++ "_1:" ++ ""
  | [p] => appName ++ "-" ++ String.mk p ++ "_1:" ++ (String.mk p ++ "_1")
  | p :: q :: _ => appName ++ "-" ++ String.mk p ++ "_1:" ++ String.mk q

/-- The text of `s` before its first `sep`, the whole of `s` when there is
none. -/
def beforeSep (sep : Char) (s : String) : String :=
  String.mk (s.data.takeWhile fun c => c ≠ sep)

/-- The text put before the last element of a cleaned path whose earlier
elements are `dirs`: nothing when there is none, else the elements joined by
slashes and one more slash. -/
def dirPrefix (dirs : List String) : String :=
  if dirs = [] then "" else "/".intercalate dirs ++ "/"

/-- The path of the file `name` directly inside the cleaned directory `dir`:
`name` alone in the directory `.`, `/name` in the root, and `dir/name`
otherwise. -/
def inDir (dir name : String) : String :=
  if dir = "." then name
  else if dir = "/" then "/" ++ name
  else dir ++ "/" ++ name

/-- An element that can stand on the stack of `path.Clean`: not empty, not `.`
and without a slash. -/
def keptElem (e : List Char) : Prop :=
  e ≠ [] ∧ e ≠ ['.'] ∧ '/' ∉ e

/-- An element of a path that `path.Clean` keeps as it is: not empty, not `.`
and not `..`. -/
def realElem (e : List Char) : Prop :=
  e ≠ [] ∧ e ≠ ['.'] ∧ e ≠ ['.', '.']

/-! ## Lemmas on `splitChars` -/

theorem splitChars_ne_nil (sep : Char) (s : List Char) : splitChars sep s ≠ [] := by
  induction s with
  | nil => simp [splitChars]
  | cons c cs ih =>
    unfold splitChars
    split
    · simp
    · split <;> simp

theorem splitChars_of_not_mem (sep : Char) (s : List Char) (h : sep ∉ s) :
    splitChars sep s = [s] := by
  induction s with
  | nil => rfl
  | cons c cs ih =>
    have hc : ¬ c = sep := fun e => h (by simp [e])
    have hcs : sep ∉ cs := fun m => h (List.mem_cons_of_mem _ m)
    simp [splitChars, hc, ih hcs]

theorem splitChars_append_sep (sep : Char) (a b : List Char) (h : sep ∉ a) :
    splitChars sep (a ++ sep :: b) = a :: splitChars sep b := by
  induction a with
  | nil => simp [splitChars]
  | cons c cs ih =>
    have hc : ¬ c = sep := fun e => h (by simp [e])
    have hcs : sep ∉ cs := fun m => h (List.mem_cons_of_mem _ m)
    simp [splitChars, hc, ih hcs]

theorem splitChars_head (sep : Char) (s : List Char) :
    (splitChars sep s).head? = some (s.takeWhile fun c => c ≠ sep) := by
  induction s with
  | nil => rfl
  | cons c cs ih =>
    by_cases hc : c = sep
    · simp [splitChars, hc]
    · cases hs : splitChars sep cs with
      | nil => exact absurd hs (splitChars_ne_nil sep cs)
      | cons p ps =>
        rw [hs] at ih
        simp only [List.head?_cons, Option.some.injEq] at ih
        simp [splitChars, hc, hs, ih]

theorem not_mem_of_mem_splitChars (sep : Char) (s p : List Char)
    (h : p ∈ splitChars sep s) : sep ∉ p := by
  induction s generalizing p with
  | nil =>
    simp [splitChars] at h
    simp [h]
  | cons c cs ih =>
    by_cases hc : c = sep
    · simp only [splitChars, hc, if_true, List.mem_cons] at h
      rcases h with h | h
      · simp [h]
      · exact ih p h
    · cases hs : splitChars sep cs with
      | nil => exact absurd hs (splitChars_ne_nil sep cs)
      | cons q qs =>
        simp only [splitChars, hc, if_false, hs, List.mem_cons] at h
        rcases h with h | h
        · subst h
          have hq := ih q (by simp [hs])
          intro m
          rcases List.mem_cons.1 m with e | m
          · exact hc e.symm
          · exact hq m
        · exact ih p (by simp [hs, h])

/-! ## The transformer computes its closed form -/

theorem rewriteLinkEntry_eq (appName entry : String) :
    rewriteLinkEntry appName entry = some (rewrittenEntry appName entry) := by
  unfold rewriteLinkEntry rewrittenEntry Split
  cases hs : splitChars ':' entry.data with
  | nil => exact absurd hs (splitChars_ne_nil _ _)
  | cons p ps =>
    cases ps with
    | nil => simp
    | cons q qs => simp

theorem linksLoop_append (appName : String) (done rest : List String) :
    linksLoop appName rest.length done.length (done ++ rest)
      = some (done ++ rest.map (rewrittenEntry appName)) := by
  induction rest generalizing done with
  | nil => simp [linksLoop]
  | cons e es ih =>
    have hget : (done ++ e :: es)[done.length]? = some e := by
      rw [List.getElem?_append_right (Nat.le_refl _)]
      simp
    have hset : (done ++ e :: es).set done.length (rewrittenEntry appName e)
        = (done ++ [rewrittenEntry appName e]) ++ es := by simp
    have hlen : done.length + 1 = (done ++ [rewrittenEntry appName e]).length := by simp
    simp only [List.length_cons, linksLoop, hget, rewriteLinkEntry_eq, Option.bind_eq_bind,
      Option.some_bind, hset]
    rw [hlen, ih]
    simp

theorem linksLoop_eq (appName : String) (links : List String) :
    linksLoop appName links.length 0 links = some (links.map (rewrittenEntry appName)) := by
  simpa using linksLoop_append appName [] links

theorem setLinksWithAppName_eq (g : Globals) (service : Service) :
    setLinksWithAppName g service
      = some { service with Links := service.Links.map (rewrittenEntry g.appName) } := by
  unfold setLinksWithAppName
  rw [linksLoop_eq]
  simp

theorem buildScriptDataTemplate_eq (g : Globals) (serviceName : String) (service : Service) :
    buildScriptDataTemplate g serviceName service
      = some
          { AppName := g.appName
            DockerHostConnCmdArg :=
              if g.dockerHostConn = "" then "" else "--host=" ++ g.dockerHostConn
            Service :=
              { service with
                Name := g.appName ++ "-" ++ serviceName
                Links := service.Links.map (rewrittenEntry g.appName) } } := by
  unfold buildScriptDataTemplate
  by_cases h : g.dockerHostConn = "" <;> simp [h, setLinksWithAppName_eq]

/-! ## Rewriting one link entry -/

theorem colon_data : (":" : String).data = [':'] := rfl

theorem beforeSep_of_not_mem (sep : Char) (s : String) (h : sep ∉ s.data) :
    beforeSep sep s = s := by
  unfold beforeSep
  have : s.data.takeWhile (fun c => c ≠ sep) = s.data := by
    rw [List.takeWhile_eq_self_iff]
    intro c hc
    have : c ≠ sep := fun e => h (e ▸ hc)
    simpa using this
  rw [this]

theorem rewrittenEntry_no_colon (appName x : String) (h : ':' ∉ x.data) :
    rewrittenEntry appName x = appName ++ "-" ++ x ++ "_1:" ++ x ++ "_1" := by
  unfold rewrittenEntry
  rw [splitChars_of_not_mem _ _ h]
  apply String.ext
  simp [String.data_append]

theorem rewrittenEntry_colon (appName target rest : String) (h : ':' ∉ target.data) :
    rewrittenEntry appName (target ++ ":" ++ rest)
      = appName ++ "-" ++ target ++ "_1:" ++ beforeSep ':' rest := by
  unfold rewrittenEntry
  have hd : (target ++ ":" ++ rest).data = target.data ++ ':' :: rest.data := by
    simp [String.data_append, colon_data]
  rw [hd, splitChars_append_sep _ _ _ h]
  have hh := splitChars_head ':' rest.data
  cases hs : splitChars ':' rest.data with
  | nil => exact absurd hs (splitChars_ne_nil _ _)
  | cons q qs =>
    rw [hs] at hh
    simp only [List.head?_cons, Option.some.injEq] at hh
    simp [beforeSep, hh]

theorem setLinksWithAppName_getElem? (g : Globals) (service : Service) (i : Nat) (e : String)
    (h : service.Links[i]? = some e) :
    ∃ s, setLinksWithAppName g service = some s
      ∧ s.Links[i]? = some (rewrittenEntry g.appName e) := by
  refine ⟨_, setLinksWithAppName_eq g service, ?_⟩
  simp [List.getElem?_map, h]

/-! ## The claims -/

/-- C1: for every application name (the non-empty ones among them), every
service key `s` and every record, `buildScriptDataTemplate` returns a context
whose service name is `appName + "-" + s`, whatever name the record had. -/
theorem buildScriptDataTemplate_name (g : Globals) (s : String) (service : Service) :
    ∃ ctx, buildScriptDataTemplate g s service = some ctx
      ∧ ctx.Service.Name = g.appName ++ "-" ++ s :=
  ⟨_, buildScriptDataTemplate_eq g s service, rfl⟩

/-- C2: a link entry `x` without a colon is rewritten by `setLinksWithAppName`
to `appName + "-" + x + "_1:" + x + "_1"`: the alias defaults to the target
followed by `_1`. -/
theorem setLinksWithAppName_no_alias (g : Globals) (service : Service) (i : Nat) (x : String)
    (hx : service.Links[i]? = some x) (hc : ':' ∉ x.data) :
    ∃ s, setLinksWithAppName g service = some s
      ∧ s.Links[i]? = some (g.appName ++ "-" ++ x ++ "_1:" ++ x ++ "_1") := by
  rw [← rewrittenEntry_no_colon g.appName x hc]
  exact setLinksWithAppName_getElem? g service i x hx

/-- Witness of C2: the entry `db` of the application `app`. -/
theorem setLinksWithAppName_no_alias_witness :
    ∃ s, setLinksWithAppName ⟨"app", "", ".", ""⟩ { Service.zero with Links := ["db"] } = some s
      ∧ s.Links[0]? = some ("app" ++ "-" ++ "db" ++ "_1:" ++ "db" ++ "_1") :=
  setLinksWithAppName_no_alias ⟨"app", "", ".", ""⟩ { Service.zero with Links := ["db"] } 0 "db"
    rfl (by decide)

/-- C3: a link entry `x:y`, with no colon in `x` or in `y`, is rewritten by
`setLinksWithAppName` to `appName + "-" + x + "_1:" + y`. -/
theorem setLinksWithAppName_alias (g : Globals) (service : Service) (i : Nat) (x y : String)
    (he : service.Links[i]? = some (x ++ ":" ++ y))
    (hx : ':' ∉ x.data) (hy : ':' ∉ y.data) :
    ∃ s, setLinksWithAppName g service = some s
      ∧ s.Links[i]? = some (g.appName ++ "-" ++ x ++ "_1:" ++ y) := by
  have h := setLinksWithAppName_getElem? g service i _ he
  rwa [rewrittenEntry_colon g.appName x y hx, beforeSep_of_not_mem _ _ hy] at h

/-- Witness of C3: the entry `db:database` of the application `app`. -/
theorem setLinksWithAppName_alias_witness :
    ∃ s, setLinksWithAppName ⟨"app", "", ".", ""⟩
        { Service.zero with Links := ["db:database"] } = some s
      ∧ s.Links[0]? = some ("app" ++ "-" ++ "db" ++ "_1:" ++ "database") :=
  setLinksWithAppName_alias ⟨"app", "", ".", ""⟩
    { Service.zero with Links := ["db:database"] } 0 "db" "database" rfl (by decide) (by decide)

/-- C4, as stated, fails: the entry `a:b:c` has the text `b:c` after its first
colon, and it is rewritten to `app-a_1:b`, not to `app-a_1:b:c`. -/
theorem setLinksWithAppName_first_colon_only_fails :
    ¬ ∀ (g : Globals) (service : Service) (i : Nat) (target rest : String),
        service.Links[i]? = some (target ++ ":" ++ rest) → ':' ∉ target.data →
        ∃ s, setLinksWithAppName g service = some s
          ∧ s.Links[i]? = some (g.appName ++ "-" ++ target ++ "_1:" ++ rest) := by
  intro h
  obtain ⟨s, hs, hl⟩ := h ⟨"app", "", ".", ""⟩ { Service.zero with Links := ["a:b:c"] } 0
    "a" "b:c" rfl (by decide)
  have hs2 : setLinksWithAppName ⟨"app", "", ".", ""⟩ { Service.zero with Links := ["a:b:c"] }
      = some { Service.zero with Links := ["app-a_1:b"] } := by decide
  rw [hs2] at hs
  cases hs
  revert hl
  decide

/-- C4, amended: for a link entry with a colon, the target is the text before
the first colon and the alias is the text between the first colon and the
second one (all the text after the first colon when there is no second one);
the entry is rewritten to `appName + "-" + target + "_1:" + alias`, and
whatever follows a second colon is dropped. -/
theorem setLinksWithAppName_second_piece (g : Globals) (service : Service) (i : Nat)
    (target rest : String)
    (he : service.Links[i]? = some (target ++ ":" ++ rest)) (ht : ':' ∉ target.data) :
    ∃ s, setLinksWithAppName g service = some s
      ∧ s.Links[i]? = some (g.appName ++ "-" ++ target ++ "_1:" ++ beforeSep ':' rest) := by
  have h := setLinksWithAppName_getElem? g service i _ he
  rwa [rewrittenEntry_colon g.appName target rest ht] at h

/-- Witness of the amended C4: the entry `a:b:c` of the application `app`. -/
theorem setLinksWithAppName_second_piece_witness :
    ∃ s, setLinksWithAppName ⟨"app", "", ".", ""⟩ { Service.zero with Links := ["a:b:c"] } = some s
      ∧ s.Links[0]? = some ("app" ++ "-" ++ "a" ++ "_1:" ++ beforeSep ':' "b:c") :=
  setLinksWithAppName_second_piece ⟨"app", "", ".", ""⟩
    { Service.zero with Links := ["a:b:c"] } 0 "a" "b:c" rfl (by decide)

/-- C5: the host-connection argument of the context `buildScriptDataTemplate`
returns is empty when `dockerHostConn` is empty and `"--host=" + dockerHostConn`
otherwise; it is a function of `dockerHostConn` alone, the same for every
service key and record. -/
theorem buildScriptDataTemplate_hostArg (g : Globals) (s : String) (service : Service) :
    ∃ ctx, buildScriptDataTemplate g s service = some ctx
      ∧ ctx.DockerHostConnCmdArg
          = (if g.dockerHostConn = "" then "" else "--host=" ++ g.dockerHostConn) :=
  ⟨_, buildScriptDataTemplate_eq g s service, rfl⟩

/-! ## Occurrences in the rendered script -/

theorem occursIn_refl (s : String) : occursIn s s :=
  List.infix_refl _

theorem occursIn_trans {a b c : String} (h₁ : occursIn a b) (h₂ : occursIn b c) :
    occursIn a c :=
  List.IsInfix.trans h₁ h₂

theorem occursIn_append_left (t a b : String) (h : occursIn t a) : occursIn t (a ++ b) := by
  unfold occursIn at *
  rw [String.data_append]
  exact h.trans (List.prefix_append _ _).isInfix

theorem occursIn_append_right (t a b : String) (h : occursIn t b) : occursIn t (a ++ b) := by
  unfold occursIn at *
  rw [String.data_append]
  exact h.trans (List.suffix_append _ _).isInfix

theorem occursIn_concatAll (t x : String) (l : List String) (hx : x ∈ l) (h : occursIn t x) :
    occursIn t (concatAll l) := by
  induction l with
  | nil => cases hx
  | cons y ys ih =>
    rcases List.mem_cons.1 hx with e | m
    · subst e
      exact occursIn_append_left _ _ _ h
    · exact occursIn_append_right _ _ _ (ih m)

theorem occursIn_unlines (t x : String) (ls : List String) (hx : x ∈ ls) (h : occursIn t x) :
    occursIn t (unlines ls) :=
  occursIn_concatAll t (x ++ "\n") _ (List.mem_map.2 ⟨x, hx, rfl⟩)
    (occursIn_append_left _ _ _ h)

theorem concatAll_append (a b : List String) :
    concatAll (a ++ b) = concatAll a ++ concatAll b := by
  induction a with
  | nil => simp [concatAll]
  | cons x xs ih => simp [concatAll, ih, String.append_assoc]

theorem bashTemplate_eq_head_run (d : ScriptDataTemplate) :
    bashTemplate d = unlines ((bashTemplateLines d).take 7) ++ runCommand d := by
  unfold bashTemplate runCommand unlines
  rw [← concatAll_append, ← List.map_append, List.take_append_drop]

theorem runCommand_eq (d : ScriptDataTemplate) :
    runCommand d
      = "/usr/bin/docker " ++ d.DockerHostConnCmdArg ++ " run \\\n"
        ++ unlines (runFlagLines d.Service) := by
  unfold runCommand bashTemplateLines unlines
  apply String.ext
  simp only [List.cons_append, List.nil_append, List.drop_succ_cons, List.drop_zero,
    List.map_cons, concatAll, String.data_append, List.append_assoc]

/-- The layout of the rendered script around its four docker invocations, for
any host-connection argument `h`. -/
theorem bashTemplate_layout (d : ScriptDataTemplate) :
    bashTemplate d
      = "#!/bin/bash\n/usr/bin/docker " ++ d.DockerHostConnCmdArg ++ " pull "
        ++ d.Service.Image
        ++ "\n\nif /usr/bin/docker " ++ d.DockerHostConnCmdArg ++ " ps | grep --quiet "
        ++ d.Service.Name
        ++ "_1 ; then\n    /usr/bin/docker " ++ d.DockerHostConnCmdArg ++ " rm -f "
        ++ d.Service.Name
        ++ "_1\nfi\n\n/usr/bin/docker " ++ d.DockerHostConnCmdArg ++ " run \\\n"
        ++ unlines (runFlagLines d.Service) := by
  unfold bashTemplate bashTemplateLines unlines
  apply String.ext
  simp only [List.cons_append, List.nil_append, List.map_cons, concatAll,
    String.data_append, List.append_assoc]

theorem occursIn_runCommand (t x : String) (d : ScriptDataTemplate)
    (hx : x ∈ runFlagLines d.Service) (h : occursIn t x) : occursIn t (runCommand d) := by
  rw [runCommand_eq]
  exact occursIn_append_right _ _ _ (occursIn_unlines t x _ hx h)

theorem occursIn_flag_item (flag x : String) (f : String → String) (l : List String)
    (hx : x ∈ l) (hf : occursIn flag (f x)) :
    occursIn flag ("  " ++ concatAll (l.map f) ++ " \\") :=
  occursIn_append_left _ _ _ (occursIn_append_right _ _ _
    (occursIn_concatAll _ (f x) _ (List.mem_map.2 ⟨x, hx, rfl⟩) hf))

theorem runCommand_suffix (d : ScriptDataTemplate) :
    ∃ pre, runCommand d = pre ++ d.Service.Image ++ "  " ++ d.Service.Command ++ "\n" := by
  refine ⟨"/usr/bin/docker " ++ d.DockerHostConnCmdArg ++ " run \\\n"
    ++ unlines ((runFlagLines d.Service).take 8) ++ "  ", ?_⟩
  rw [runCommand_eq]
  unfold runFlagLines unlines
  apply String.ext
  simp only [List.map_cons, List.map_nil, concatAll, List.take_succ_cons, List.take_zero,
    String.data_append, List.append_assoc, String.append_empty]

/-- C7: the `run` command of the script rendered from the context that
`buildScriptDataTemplate` returns contains `--name appName-key_1`, contains
`--link r` for the rewrite `r` of every link entry, `-v v` for every volume,
`-e k="v"` for every environment pair, `-p p` for every port, and ends with the
image followed by the command (and the newline that closes the script); the
`run` command is the end of the script. -/
theorem runCommand_flags (g : Globals) (key : String) (service : Service) :
    ∃ ctx, buildScriptDataTemplate g key service = some ctx
      ∧ occursIn ("--name " ++ g.appName ++ "-" ++ key ++ "_1") (runCommand ctx)
      ∧ (∀ e ∈ service.Links, ∃ r, rewriteLinkEntry g.appName e = some r
          ∧ occursIn ("--link " ++ r) (runCommand ctx))
      ∧ (∀ v ∈ service.Volumes, occursIn ("-v " ++ v) (runCommand ctx))
      ∧ (∀ kv ∈ service.Environment,
          occursIn ("-e " ++ kv.1 ++ "=\"" ++ kv.2 ++ "\"") (runCommand ctx))
      ∧ (∀ p ∈ service.Ports, occursIn ("-p " ++ p) (runCommand ctx))
      ∧ (∃ pre, runCommand ctx = pre ++ service.Image ++ "  " ++ service.Command ++ "\n")
      ∧ (∃ pre, bashTemplate ctx = pre ++ runCommand ctx) := by
  refine ⟨_, buildScriptDataTemplate_eq g key service, ?_, ?_, ?_, ?_, ?_, ?_, ?_⟩
  · refine occursIn_runCommand _ _ _ (List.mem_cons_of_mem _ (List.mem_cons_of_mem _
      (List.mem_cons_of_mem _ (List.mem_cons_self _ _)))) ?_
    have : ("--name " ++ g.appName ++ "-" ++ key ++ "_1" : String)
        = "--name " ++ (g.appName ++ "-" ++ key) ++ "_1" := by
      simp [String.append_assoc]
    rw [this]
    have h₁ : occursIn ("--name " ++ (g.appName ++ "-" ++ key) ++ "_1")
        ("--name " ++ (g.appName ++ "-" ++ key) ++ "_1 \\") := by
      have : ("--name " ++ (g.appName ++ "-" ++ key) ++ "_1 \\" : String)
          = "--name " ++ (g.appName ++ "-" ++ key) ++ "_1" ++ " \\" := by
        apply String.ext
        simp [String.data_append]
      rw [this]
      exact occursIn_append_left _ _ _ (occursIn_refl _)
    have h₂ : ("  --name " ++ (g.appName ++ "-" ++ key) ++ "_1 \\" : String)
        = "  " ++ ("--name " ++ (g.appName ++ "-" ++ key) ++ "_1 \\") := by
      apply String.ext
      simp [String.data_append]
    show occursIn _ ("  --name " ++ (g.appName ++ "-" ++ key) ++ "_1 \\")
    rw [h₂]
    exact occursIn_append_right _ _ _ h₁
  · intro e he
    refine ⟨_, rewriteLinkEntry_eq g.appName e, ?_⟩
    refine occursIn_runCommand _ _ _ (List.mem_cons_of_mem _ (List.mem_cons_of_mem _
      (List.mem_cons_of_mem _ (List.mem_cons_of_mem _ (List.mem_cons_of_mem _
      (List.mem_cons_self _ _)))))) ?_
    exact occursIn_flag_item _ (rewrittenEntry g.appName e) (fun l => "--link " ++ l ++ " ") _
      (List.mem_map.2 ⟨e, he, rfl⟩) (occursIn_append_left _ _ _ (occursIn_refl _))
  · intro v hv
    refine occursIn_runCommand _ _ _ (List.mem_cons_of_mem _ (List.mem_cons_of_mem _
      (List.mem_cons_of_mem _ (List.mem_cons_of_mem _ (List.mem_cons_self _ _))))) ?_
    exact occursIn_flag_item _ v (fun v => "-v " ++ v ++ " ") _ hv
      (occursIn_append_left _ _ _ (occursIn_refl _))
  · intro kv hkv
    refine occursIn_runCommand _ _ _ (List.mem_cons_of_mem _ (List.mem_cons_of_mem _
      (List.mem_cons_of_mem _ (List.mem_cons_of_mem _ (List.mem_cons_of_mem _
      (List.mem_cons_of_mem _ (List.mem_cons_self _ _))))))) ?_
    have hmem : kv ∈ rangeMap service.Environment :=
      (List.mem_insertionSort _).2 hkv
    refine occursIn_append_left _ _ _ (occursIn_append_right _ _ _
      (occursIn_concatAll _ _ _ (List.mem_map.2 ⟨kv, hmem, rfl⟩) ?_))
    have : ("-e " ++ kv.1 ++ "=\"" ++ kv.2 ++ "\" " : String)
        = "-e " ++ kv.1 ++ "=\"" ++ kv.2 ++ "\"" ++ " " := by
      apply String.ext
      simp [String.data_append]
    rw [this]
    exact occursIn_append_left _ _ _ (occursIn_refl _)
  · intro p hp
    refine occursIn_runCommand _ _ _ (List.mem_cons_of_mem _ (List.mem_cons_of_mem _
      (List.mem_cons_of_mem _ (List.mem_cons_of_mem _ (List.mem_cons_of_mem _
      (List.mem_cons_of_mem _ (List.mem_cons_of_mem _ (List.mem_cons_self _ _)))))))) ?_
    exact occursIn_flag_item _ p (fun p => "-p " ++ p ++ " ") _ hp
      (occursIn_append_left _ _ _ (occursIn_refl _))
  · exact runCommand_suffix _
  · exact ⟨_, bashTemplate_eq_head_run _⟩

/-- Witness of C7, the scenario of the specification: the service `web` of
`myapp` with image `nginx`, the link `db`, `ENV=prod` and the port `80:80`. -/
theorem runCommand_flags_witness :
    ∃ ctx, buildScriptDataTemplate ⟨"myapp", "docker-compose.yml", ".", ""⟩ "web"
        { Service.zero with
          Image := "nginx", Links := ["db"], Environment := [("ENV", "prod")],
          Ports := ["80:80"] } = some ctx
      ∧ occursIn "--name myapp-web_1" (runCommand ctx)
      ∧ occursIn "--link myapp-db_1:db_1" (runCommand ctx)
      ∧ occursIn "-e ENV=\"prod\"" (runCommand ctx)
      ∧ occursIn "-p 80:80" (runCommand ctx)
      ∧ (∃ pre, runCommand ctx = pre ++ "nginx" ++ "  " ++ "" ++ "\n") := by
  obtain ⟨ctx, h, hn, hl, _, he, hp, hend, _⟩ :=
    runCommand_flags ⟨"myapp", "docker-compose.yml", ".", ""⟩ "web"
      { Service.zero with
        Image := "nginx", Links := ["db"], Environment := [("ENV", "prod")],
        Ports := ["80:80"] }
  obtain ⟨r, hr, ho⟩ := hl "db" (List.mem_singleton.2 rfl)
  have hr' : r = "myapp-db_1:db_1" := by
    have : rewriteLinkEntry "myapp" "db" = some "myapp-db_1:db_1" := by decide
    rw [this] at hr
    exact (Option.some.inj hr).symm
  subst hr'
  exact ⟨ctx, h, hn, ho, he ("ENV", "prod") (List.mem_singleton.2 rfl),
    hp "80:80" (List.mem_singleton.2 rfl), hend⟩

/-! ## The emitter drops its errors -/

theorem saveLoop_isSome (g : Globals) (fs : FileSystem) (services : List (String × Service)) :
    ∃ fs', saveLoop g fs services = some fs' := by
  induction services generalizing fs with
  | nil => exact ⟨fs, rfl⟩
  | cons p rest ih =>
    obtain ⟨name, service⟩ := p
    simp only [saveLoop, buildScriptDataTemplate_eq, Option.bind_eq_bind, Option.some_bind]
    exact ih _

/-- The error `saveToBash` returns is `nil` on every run: whatever the file
system allows and whatever the services are. -/
theorem saveToBash_error_nil (g : Globals) (fs : FileSystem)
    (services : List (String × Service)) :
    ∃ fs', saveToBash g fs services = some (fs', none) := by
  obtain ⟨fs', h⟩ := saveLoop_isSome g fs services
  exact ⟨fs', by simp [saveToBash, parseBashTemplate, h]⟩

/-- C8, on the code: with an output directory in which no file can be created,
`os.Create` fails for the service `web`, no script is written, and `saveToBash`
still returns a `nil` error; and when the file is created but the write fails,
the file is left empty and the returned error is `nil` as well. -/
theorem saveToBash_create_failure_returns_nil :
    (osCreate ⟨fun _ => false, fun _ => true, []⟩ "missing/myapp-web.1.sh").2.2 ≠ none
      ∧ (saveToBash ⟨"myapp", "docker-compose.yml", "missing", ""⟩
            ⟨fun _ => false, fun _ => true, []⟩
            [("web", { Service.zero with Image := "nginx" })]).map
          (fun r => (r.1.files, r.2)) = some ([], none)
      ∧ (saveToBash ⟨"myapp", "docker-compose.yml", "out", ""⟩
            ⟨fun _ => true, fun _ => false, []⟩
            [("web", { Service.zero with Image := "nginx" })]).map
          (fun r => (r.1.files, r.2)) = some ([("out/myapp-web.1.sh", "")], none) := by
  refine ⟨by decide, rfl, ?_⟩
  decide

/-! ## Applying the transformation twice -/

theorem dash_data : ("-" : String).data = ['-'] := rfl

theorem suffix_data : ("_1:" : String).data = ['_', '1', ':'] := rfl

theorem rewrittenEntry_data (appName x : String) :
    ∃ p a, (splitChars ':' x.data).head? = some p
      ∧ (rewrittenEntry appName x).data
          = (appName.data ++ '-' :: (p ++ ['_', '1'])) ++ ':' :: a := by
  unfold rewrittenEntry
  cases hs : splitChars ':' x.data with
  | nil => exact absurd hs (splitChars_ne_nil _ _)
  | cons p ps =>
    cases ps with
    | nil =>
      exact ⟨p, p ++ ("_1" : String).data, rfl, by
        simp [String.data_append, dash_data, suffix_data]⟩
    | cons q qs =>
      exact ⟨p, q, rfl, by simp [String.data_append, dash_data, suffix_data]⟩

theorem rewrittenEntry_ne (appName x : String) (h : ':' ∉ appName.data) :
    rewrittenEntry appName x ≠ x := by
  intro heq
  obtain ⟨p, a, hp, hd⟩ := rewrittenEntry_data appName x
  have hpmem : p ∈ splitChars ':' x.data := by
    cases hs : splitChars ':' x.data with
    | nil => exact absurd hs (splitChars_ne_nil _ _)
    | cons q qs =>
      rw [hs] at hp
      simp only [List.head?_cons, Option.some.injEq] at hp
      simp [hp]
  have hpc : ':' ∉ p := not_mem_of_mem_splitChars ':' x.data p hpmem
  have hfront : ':' ∉ appName.data ++ '-' :: (p ++ ['_', '1']) := by
    intro m
    rcases List.mem_append.1 m with m | m
    · exact h m
    · rcases List.mem_cons.1 m with e | m
      · exact absurd e (by decide)
      · rcases List.mem_append.1 m with m | m
        · exact hpc m
        · revert m
          decide
  rw [heq] at hd
  have hsplit := splitChars_append_sep ':' _ a hfront
  rw [← hd] at hsplit
  rw [hsplit] at hp
  simp only [List.head?_cons, Option.some.injEq] at hp
  have hlen := congrArg List.length hp
  simp at hlen
  omega

theorem map_ne_of_ne {α : Type} (f : α → α) (l : List α) (hf : ∀ x, f x ≠ x) (hl : l ≠ []) :
    l.map f ≠ l := by
  cases l with
  | nil => exact absurd rfl hl
  | cons x xs =>
    intro h
    simp only [List.map_cons, List.cons.injEq] at h
    exact hf x h.1

/-- C9, as stated, fails: the second application with the same key `web` sets
the name from the key again, so the name is `app-web` after it as after the
first application, not `app-app-web`. -/
theorem buildScriptDataTemplate_twice_not_double :
    ¬ ∀ (g : Globals) (s : String) (service : Service) (c₁ c₂ : ScriptDataTemplate),
        g.appName ≠ "" →
        buildScriptDataTemplate g s service = some c₁ →
        buildScriptDataTemplate g s c₁.Service = some c₂ →
        c₂.Service.Name = g.appName ++ "-" ++ g.appName ++ "-" ++ s
          ∧ c₂.Service.Name ≠ c₁.Service.Name := by
  intro h
  have hne : ("app" : String) ≠ "" := by decide
  have h' := h ⟨"app", "", ".", ""⟩ "web" Service.zero _ _ hne
    (buildScriptDataTemplate_eq _ _ _) (buildScriptDataTemplate_eq _ _ _)
  exact h'.2 rfl

/-- C9, amended: applying `buildScriptDataTemplate` to the service of an already
transformed context with the same key `s` gives the name `appName + "-" + s`
again, the name after one application; the name is double-prefixed, to
`appName + "-" + appName + "-" + s`, when the transformed name is passed as the
key of the second application, and then it differs from the name after one
application. -/
theorem buildScriptDataTemplate_twice_name (g : Globals) (s : String) (service : Service) :
    ∃ c₁ c₂ c₃, buildScriptDataTemplate g s service = some c₁
      ∧ buildScriptDataTemplate g s c₁.Service = some c₂
      ∧ c₂.Service.Name = g.appName ++ "-" ++ s
      ∧ c₂.Service.Name = c₁.Service.Name
      ∧ buildScriptDataTemplate g c₁.Service.Name c₁.Service = some c₃
      ∧ c₃.Service.Name = g.appName ++ "-" ++ g.appName ++ "-" ++ s
      ∧ c₃.Service.Name ≠ c₁.Service.Name := by
  refine ⟨_, _, _, buildScriptDataTemplate_eq g s service, buildScriptDataTemplate_eq g s _,
    rfl, rfl, buildScriptDataTemplate_eq g _ _, ?_, ?_⟩
  · show g.appName ++ "-" ++ (g.appName ++ "-" ++ s) = _
    simp [String.append_assoc]
  · show g.appName ++ "-" ++ (g.appName ++ "-" ++ s) ≠ g.appName ++ "-" ++ s
    intro h
    have hlen := congrArg String.length h
    simp only [String.length_append] at hlen
    have : ("-" : String).length = 1 := rfl
    omega

/-- C10, as stated, fails: with the application name `a:b` the entry `a:b-a_1`
is rewritten to `a:b-a_1:b-a_1`, and a second application leaves that entry as
it is. -/
theorem setLinksWithAppName_twice_same :
    ¬ ∀ (g : Globals) (service s₁ s₂ : Service),
        g.appName ≠ "" → service.Links ≠ [] →
        setLinksWithAppName g service = some s₁ →
        setLinksWithAppName g s₁ = some s₂ →
        s₂.Links ≠ s₁.Links := by
  intro h
  have h₁ : setLinksWithAppName ⟨"a:b", "", ".", ""⟩ { Service.zero with Links := ["a:b-a_1"] }
      = some { Service.zero with Links := ["a:b-a_1:b-a_1"] } := by decide
  have h₂ : setLinksWithAppName ⟨"a:b", "", ".", ""⟩
      { Service.zero with Links := ["a:b-a_1:b-a_1"] }
      = some { Service.zero with Links := ["a:b-a_1:b-a_1"] } := by decide
  have hne : ("a:b" : String) ≠ "" := by decide
  have hl : (["a:b-a_1"] : List String) ≠ [] := by decide
  exact h ⟨"a:b", "", ".", ""⟩ { Service.zero with Links := ["a:b-a_1"] } _ _
    hne hl h₁ h₂ rfl

/-- C10, amended: for every application name without a colon (empty or not)
and every record with at least one link entry, applying `setLinksWithAppName`
twice yields a list of links that differs from the list after one application;
no rewritten entry is left as it is by the second application. -/
theorem setLinksWithAppName_twice_ne (g : Globals) (service : Service)
    (hc : ':' ∉ g.appName.data) (hl : service.Links ≠ []) :
    ∃ s₁ s₂, setLinksWithAppName g service = some s₁
      ∧ setLinksWithAppName g s₁ = some s₂
      ∧ s₂.Links ≠ s₁.Links
      ∧ ∀ (i : Nat) (r₁ r₂ : String), s₁.Links[i]? = some r₁ → s₂.Links[i]? = some r₂ → r₂ ≠ r₁ := by
  refine ⟨_, _, setLinksWithAppName_eq g service, setLinksWithAppName_eq g _, ?_, ?_⟩
  · exact map_ne_of_ne _ _ (fun x => rewrittenEntry_ne g.appName x hc) (by simpa using hl)
  · intro i r₁ r₂ h₁ h₂
    simp only [List.getElem?_map] at h₁ h₂
    rw [h₁] at h₂
    simp only [Option.map_some', Option.some.injEq] at h₂
    rw [← h₂]
    exact rewrittenEntry_ne g.appName r₁ hc

/-- Witness of the amended C10: the entry `db` of the application `app` becomes
`app-db_1:db_1` and then `app-app-db_1_1:db_1`. -/
theorem setLinksWithAppName_twice_ne_witness :
    (∃ s₁ s₂, setLinksWithAppName ⟨"app", "", ".", ""⟩
          { Service.zero with Links := ["db"] } = some s₁
        ∧ setLinksWithAppName ⟨"app", "", ".", ""⟩ s₁ = some s₂
        ∧ s₂.Links ≠ s₁.Links
        ∧ ∀ (i : Nat) (r₁ r₂ : String), s₁.Links[i]? = some r₁ → s₂.Links[i]? = some r₂ → r₂ ≠ r₁)
      ∧ (setLinksWithAppName ⟨"app", "", ".", ""⟩ { Service.zero with Links := ["db"] }).map
          (fun s => s.Links) = some ["app-db_1:db_1"]
      ∧ (setLinksWithAppName ⟨"app", "", ".", ""⟩
          { Service.zero with Links := ["app-db_1:db_1"] }).map
          (fun s => s.Links) = some ["app-app-db_1_1:db_1"] :=
  ⟨setLinksWithAppName_twice_ne ⟨"app", "", ".", ""⟩ { Service.zero with Links := ["db"] }
    (by decide) (by decide), by decide, by decide⟩

/-! ## Texts that cannot hold an occurrence -/

theorem infix_of_infix_sep {pat a b : List Char} {c : Char} (hc : c ∉ pat)
    (h : pat <:+: a ++ c :: b) : pat <:+: a ∨ pat <:+: b := by
  obtain ⟨u, v, huv⟩ := h
  rw [List.append_assoc] at huv
  rcases List.append_eq_append_iff.1 huv with ⟨a', ha, hb⟩ | ⟨c', hu, hb⟩
  · rcases List.append_eq_append_iff.1 hb with ⟨x, hx, _⟩ | ⟨y, hy, hcy⟩
    · exact Or.inl ⟨u, x, by rw [ha, hx, List.append_assoc]⟩
    · cases y with
      | nil =>
        rw [List.append_nil] at hy
        exact Or.inl ⟨u, [], by rw [ha, hy, List.append_nil]⟩
      | cons y ys =>
        simp only [List.cons_append, List.cons.injEq] at hcy
        exact absurd (by rw [hy, hcy.1]; simp) hc
  · cases c' with
    | nil =>
      cases pat with
      | nil => exact Or.inl ⟨a, [], by simp⟩
      | cons q qs =>
        simp only [List.nil_append, List.cons_append, List.cons.injEq] at hb
        exact absurd (by rw [hb.1]; simp) hc
    | cons x xs =>
      simp only [List.cons_append, List.cons.injEq] at hb
      exact Or.inr ⟨xs, v, by rw [hb.2, List.append_assoc]⟩

theorem endsOutside_append (t a l : String) (h : endsOutside t l = true) :
    endsOutside t (a ++ l) = true := by
  unfold endsOutside at *
  rw [String.data_append, List.getLast?_append]
  cases hl : l.data.getLast? with
  | none => simp [hl] at h
  | some c => simpa [hl] using h

theorem not_occursIn_append_of_closed (t a b : String) (ha : Closed t a)
    (hb : ¬ occursIn t b) : ¬ occursIn t (a ++ b) := by
  obtain ⟨hfree, hend⟩ := ha
  unfold endsOutside at hend
  cases hl : a.data.getLast? with
  | none => simp [hl] at hend
  | some c =>
    obtain ⟨ys, hys⟩ := List.getLast?_eq_some_iff.1 hl
    have hc : c ∉ t.data := by simpa [hl] using hend
    intro h
    unfold occursIn at h hfree hb
    rw [String.data_append, hys, List.append_assoc, List.singleton_append] at h
    rcases infix_of_infix_sep hc h with h | h
    · exact hfree (hys ▸ h.trans (List.prefix_append _ _).isInfix)
    · exact hb h

theorem not_occursIn_append_of_starts (t a l : String) (ha : ¬ occursIn t a)
    (hl : ¬ occursIn t l) (hs : startsOutside t l = true) : ¬ occursIn t (a ++ l) := by
  unfold startsOutside at hs
  cases hh : l.data.head? with
  | none => simp [hh] at hs
  | some c =>
    obtain ⟨ys, hys⟩ := List.head?_eq_some_iff.1 hh
    have hc : c ∉ t.data := by simpa [hh] using hs
    intro h
    unfold occursIn at h ha hl
    rw [String.data_append, hys] at h
    rcases infix_of_infix_sep hc h with h | h
    · exact ha h
    · exact hl (hys ▸ h.trans (List.suffix_cons _ _).isInfix)

/-- A closed text stays closed when a literal ending outside `t` follows. -/
theorem Closed.lit {t a : String} (ha : Closed t a) (l : String)
    (hl : ¬ occursIn t l) (he : endsOutside t l = true) : Closed t (a ++ l) :=
  ⟨not_occursIn_append_of_closed t a l ha hl, endsOutside_append t a l he⟩

/-- A closed text stays closed when a field and then a literal follow, the
literal starting and ending outside `t`. -/
theorem Closed.field {t a : String} (ha : Closed t a) (f l : String)
    (hf : ¬ occursIn t f) (hl : ¬ occursIn t l)
    (hs : startsOutside t l = true) (he : endsOutside t l = true) :
    Closed t (a ++ f ++ l) :=
  ⟨not_occursIn_append_of_starts t (a ++ f) l (not_occursIn_append_of_closed t a f ha hf) hl hs,
    endsOutside_append t (a ++ f) l he⟩

theorem Closed.range {t a : String} (ha : Closed t a) (pre post : String) (xs : List String)
    (hpre : ¬ occursIn t pre) (hpe : endsOutside t pre = true)
    (hpost : ¬ occursIn t post) (hps : startsOutside t post = true)
    (hpoe : endsOutside t post = true) (hx : ∀ x ∈ xs, ¬ occursIn t x) :
    Closed t (a ++ concatAll (xs.map fun x => pre ++ x ++ post)) := by
  induction xs generalizing a with
  | nil => simpa [concatAll] using ha
  | cons x rest ih =>
    have hstep : Closed t (a ++ pre ++ x ++ post) :=
      (ha.lit pre hpre hpe).field x post (hx x (List.mem_cons_self _ _)) hpost hps hpoe
    have := ih hstep (fun y hy => hx y (List.mem_cons_of_mem _ hy))
    simpa [concatAll, String.append_assoc] using this

theorem not_occursIn_host_flag (f : String) (h : ¬ occursIn "--host" f) :
    ¬ occursIn "--host=" f := by
  intro hf
  have hp : occursIn "--host" "--host=" := by decide
  exact h (occursIn_trans hp hf)

theorem not_occursIn_key_eq (k : String) (h : ¬ occursIn "--host" k) :
    ¬ occursIn "--host=" (k ++ "=") := by
  intro hf
  obtain ⟨u, v, huv⟩ := hf
  have hpat : ("--host=" : String).data = ("--host" : String).data ++ ['='] := rfl
  have hk : (k ++ "=").data = k.data ++ ['='] := String.data_append k "="
  rw [hpat, hk] at huv
  rcases List.eq_nil_or_concat v with hv | ⟨v', x, hv⟩
  · subst hv
    rw [List.append_nil, ← List.append_assoc] at huv
    have := List.append_inj_left' huv rfl
    exact h ⟨u, [], by rw [List.append_nil]; exact this⟩
  · subst hv
    have huv' : (u ++ (("--host" : String).data ++ ['=']) ++ v') ++ [x] = k.data ++ ['='] := by
      rw [← huv]; simp
    have := List.append_inj_left' huv' rfl
    exact h ⟨u, '=' :: v', by rw [← this]; simp⟩

theorem Closed.rangeEnv {a : String} (ha : Closed "--host=" a) (kvs : List (String × String))
    (hx : ∀ kv ∈ kvs, ¬ occursIn "--host" kv.1 ∧ ¬ occursIn "--host" kv.2) :
    Closed "--host=" (a ++ concatAll (kvs.map fun kv =>
      "-e " ++ kv.1 ++ "=\"" ++ kv.2 ++ "\" ")) := by
  induction kvs generalizing a with
  | nil => simpa [concatAll] using ha
  | cons kv rest ih =>
    obtain ⟨hk, hv⟩ := hx kv (List.mem_cons_self _ _)
    have h₁ : Closed "--host=" (a ++ "-e " ++ (kv.1 ++ "=") ++ "\"") :=
      (ha.lit "-e " (by decide) (by decide)).field (kv.1 ++ "=") "\""
        (not_occursIn_key_eq _ hk) (by decide) (by decide) (by decide)
    have h₂ : Closed "--host=" (a ++ "-e " ++ (kv.1 ++ "=") ++ "\"" ++ kv.2 ++ "\" ") :=
      h₁.field kv.2 "\" " (not_occursIn_host_flag _ hv) (by decide) (by decide) (by decide)
    have := ih h₂ (fun y hy => hx y (List.mem_cons_of_mem _ hy))
    have heq : a ++ "-e " ++ (kv.1 ++ "=") ++ "\"" ++ kv.2 ++ "\" "
        = a ++ ("-e " ++ kv.1 ++ "=\"" ++ kv.2 ++ "\" ") := by
      apply String.ext
      simp [String.data_append]
    rw [heq] at this
    simpa [concatAll, String.append_assoc] using this

theorem mem_serviceTexts (sv : Service) :
    sv.Name ∈ serviceTexts sv ∧ sv.Image ∈ serviceTexts sv ∧ sv.Command ∈ serviceTexts sv
      ∧ (∀ v ∈ sv.Volumes, v ∈ serviceTexts sv) ∧ (∀ l ∈ sv.Links, l ∈ serviceTexts sv)
      ∧ (∀ p ∈ sv.Ports, p ∈ serviceTexts sv)
      ∧ (∀ kv ∈ sv.Environment, kv.1 ∈ serviceTexts sv ∧ kv.2 ∈ serviceTexts sv) := by
  unfold serviceTexts
  refine ⟨by simp, by simp, by simp, ?_, ?_, ?_, ?_⟩
  · intro v hv
    simp [hv]
  · intro l hl
    simp [hl]
  · intro p hp
    simp [hp]
  · intro kv hkv
    constructor
    · have : kv.1 ∈ sv.Environment.map (fun kv => kv.1) := List.mem_map.2 ⟨kv, hkv, rfl⟩
      simp only [List.mem_cons, List.mem_append]
      exact Or.inr (Or.inr (Or.inr (Or.inl (Or.inr this))))
    · have : kv.2 ∈ sv.Environment.map (fun kv => kv.2) := List.mem_map.2 ⟨kv, hkv, rfl⟩
      simp only [List.mem_cons, List.mem_append]
      exact Or.inr (Or.inr (Or.inr (Or.inr this)))

theorem literal_pull : Closed "--host=" "#!/bin/bash\n/usr/bin/docker  pull " :=
  ⟨by decide, by decide⟩

theorem literal_ps :
    ¬ occursIn "--host=" "\n\nif /usr/bin/docker  ps | grep --quiet "
      ∧ startsOutside "--host=" "\n\nif /usr/bin/docker  ps | grep --quiet " = true
      ∧ endsOutside "--host=" "\n\nif /usr/bin/docker  ps | grep --quiet " = true :=
  ⟨by decide, by decide, by decide⟩

theorem literal_rm :
    ¬ occursIn "--host=" "_1 ; then\n    /usr/bin/docker  rm -f "
      ∧ startsOutside "--host=" "_1 ; then\n    /usr/bin/docker  rm -f " = true
      ∧ endsOutside "--host=" "_1 ; then\n    /usr/bin/docker  rm -f " = true :=
  ⟨by decide, by decide, by decide⟩

theorem literal_run :
    ¬ occursIn "--host=" "_1\nfi\n\n/usr/bin/docker  run \\\n  "
      ∧ startsOutside "--host=" "_1\nfi\n\n/usr/bin/docker  run \\\n  " = true
      ∧ endsOutside "--host=" "_1\nfi\n\n/usr/bin/docker  run \\\n  " = true :=
  ⟨by decide, by decide, by decide⟩

theorem literal_name :
    ¬ occursIn "--host=" " \\\n  --restart=always \\\n  -d \\\n  --name "
      ∧ startsOutside "--host=" " \\\n  --restart=always \\\n  -d \\\n  --name " = true
      ∧ endsOutside "--host=" " \\\n  --restart=always \\\n  -d \\\n  --name " = true :=
  ⟨by decide, by decide, by decide⟩

theorem literal_after_name :
    ¬ occursIn "--host=" "_1 \\\n  "
      ∧ startsOutside "--host=" "_1 \\\n  " = true
      ∧ endsOutside "--host=" "_1 \\\n  " = true :=
  ⟨by decide, by decide, by decide⟩

theorem literal_continue :
    ¬ occursIn "--host=" " \\\n  " ∧ endsOutside "--host=" " \\\n  " = true :=
  ⟨by decide, by decide⟩

theorem literal_flag (flag : String) (h : flag = "-v " ∨ flag = "--link " ∨ flag = "-p ") :
    ¬ occursIn "--host=" flag ∧ endsOutside "--host=" flag = true := by
  rcases h with h | h | h <;> subst h <;> exact ⟨by decide, by decide⟩

theorem literal_blank (l : String) (h : l = " " ∨ l = "  " ∨ l = "\n") :
    ¬ occursIn "--host=" l ∧ startsOutside "--host=" l = true
      ∧ endsOutside "--host=" l = true := by
  rcases h with h | h | h <;> subst h <;> exact ⟨by decide, by decide, by decide⟩

theorem literal_privileged (b : Bool) :
    ¬ occursIn "--host=" (if b then "--privileged=true " else "") := by
  cases b <;> decide

/-- With an empty host-connection argument and service texts free of `--host`,
the rendered script has no occurrence of `--host=`. -/
theorem bashTemplate_closed (d : ScriptDataTemplate) (hH : d.DockerHostConnCmdArg = "")
    (hx : ∀ x ∈ serviceTexts d.Service, ¬ occursIn "--host" x) :
    Closed "--host=" (bashTemplate d) := by
  obtain ⟨hName, hImage, hCommand, hVol, hLink, hPort, hEnv⟩ := mem_serviceTexts d.Service
  have fName := not_occursIn_host_flag _ (hx _ hName)
  have fImage := not_occursIn_host_flag _ (hx _ hImage)
  have fCommand := not_occursIn_host_flag _ (hx _ hCommand)
  have bl₁ := literal_blank " " (Or.inl rfl)
  have bl₂ := literal_blank "  " (Or.inr (Or.inl rfl))
  have bl₃ := literal_blank "\n" (Or.inr (Or.inr rfl))
  have fv := literal_flag "-v " (Or.inl rfl)
  have fl := literal_flag "--link " (Or.inr (Or.inl rfl))
  have fp := literal_flag "-p " (Or.inr (Or.inr rfl))
  have h₁ := literal_pull.field d.Service.Image _ fImage literal_ps.1 literal_ps.2.1
    literal_ps.2.2
  have h₂ := h₁.field d.Service.Name _ fName literal_rm.1 literal_rm.2.1 literal_rm.2.2
  have h₃ := h₂.field d.Service.Name _ fName literal_run.1 literal_run.2.1 literal_run.2.2
  have h₄ := h₃.field _ _ (literal_privileged d.Service.Privileged) literal_name.1
    literal_name.2.1 literal_name.2.2
  have h₅ := h₄.field d.Service.Name _ fName literal_after_name.1 literal_after_name.2.1
    literal_after_name.2.2
  have h₆ := h₅.range "-v " " " d.Service.Volumes fv.1 fv.2 bl₁.1 bl₁.2.1 bl₁.2.2
    (fun v hv => not_occursIn_host_flag _ (hx _ (hVol v hv)))
  have h₇ := h₆.lit _ literal_continue.1 literal_continue.2
  have h₈ := h₇.range "--link " " " d.Service.Links fl.1 fl.2 bl₁.1 bl₁.2.1 bl₁.2.2
    (fun l hl => not_occursIn_host_flag _ (hx _ (hLink l hl)))
  have h₉ := h₈.lit _ literal_continue.1 literal_continue.2
  have h₁₀ := h₉.rangeEnv (rangeMap d.Service.Environment) (fun kv hkv =>
    have hm : kv ∈ d.Service.Environment := (List.mem_insertionSort _).1 hkv
    ⟨hx _ (hEnv kv hm).1, hx _ (hEnv kv hm).2⟩)
  have h₁₁ := h₁₀.lit _ literal_continue.1 literal_continue.2
  have h₁₂ := h₁₁.range "-p " " " d.Service.Ports fp.1 fp.2 bl₁.1 bl₁.2.1 bl₁.2.2
    (fun p hp => not_occursIn_host_flag _ (hx _ (hPort p hp)))
  have h₁₃ := h₁₂.lit _ literal_continue.1 literal_continue.2
  have h₁₄ := h₁₃.field d.Service.Image "  " fImage bl₂.1 bl₂.2.1 bl₂.2.2
  have h₁₅ := h₁₄.field d.Service.Command "\n" fCommand bl₃.1 bl₃.2.1 bl₃.2.2
  refine (congrArg (Closed "--host=") ?_).mpr h₁₅
  rw [bashTemplate_layout, hH]
  unfold runFlagLines unlines
  apply String.ext
  simp only [List.map_cons, List.map_nil, concatAll,
    String.data_append, List.append_assoc]
  simp only [List.cons_append, List.nil_append, List.append_nil]

/-- C6, as stated, fails: with an empty `dockerHostConn` the `run` invocation
of the service whose command is `flask run --host=0.0.0.0` holds `--host=`,
since the template writes the command as it is on its last line. -/
theorem runCommand_holds_host_of_command :
    ¬ ∀ (g : Globals) (s : String) (service : Service) (ctx : ScriptDataTemplate),
        g.dockerHostConn = "" →
        buildScriptDataTemplate g s service = some ctx →
        ¬ occursIn "--host=" (runCommand ctx) := by
  intro h
  have hctx := buildScriptDataTemplate_eq ⟨"myapp", "docker-compose.yml", ".", ""⟩ "web"
    { Service.zero with Image := "python", Command := "flask run --host=0.0.0.0" }
  refine h ⟨"myapp", "docker-compose.yml", ".", ""⟩ "web"
    { Service.zero with Image := "python", Command := "flask run --host=0.0.0.0" } _ rfl hctx ?_
  obtain ⟨pre, hpre⟩ := runCommand_suffix
    { AppName := "myapp", DockerHostConnCmdArg := "",
      Service := { Service.zero with
        Name := "myapp-web", Image := "python", Command := "flask run --host=0.0.0.0" } }
  have hocc : occursIn "--host=" ("flask run --host=0.0.0.0" : String) := by decide
  have hrun : occursIn "--host="
      (pre ++ "python" ++ "  " ++ "flask run --host=0.0.0.0" ++ "\n") :=
    occursIn_append_left _ _ _ (occursIn_append_right _ _ _ hocc)
  rw [← hpre] at hrun
  exact hrun

/-- C6, amended: in the script rendered for any service, when `dockerHostConn`
is empty each of the four docker invocations (pull, ps, rm -f, run) has its
subcommand right after `/usr/bin/docker` and the two blanks of the template,
the host-connection slot between them being empty, and the whole script has no
occurrence of `--host=` unless a text of the service itself holds `--host`;
when `dockerHostConn` is a non-empty `h`, each of the four has `--host=h` as
the text right after `/usr/bin/docker` and a blank.  The lines after `run \`
hold the flags, the image and the command of the service only. -/
theorem bashTemplate_host_fragment (g : Globals) (s : String) (service : Service) :
    ∃ ctx, buildScriptDataTemplate g s service = some ctx
      ∧ (g.dockerHostConn = "" →
          bashTemplate ctx
            = "#!/bin/bash\n/usr/bin/docker  pull " ++ service.Image
              ++ "\n\nif /usr/bin/docker  ps | grep --quiet " ++ (g.appName ++ "-" ++ s)
              ++ "_1 ; then\n    /usr/bin/docker  rm -f " ++ (g.appName ++ "-" ++ s)
              ++ "_1\nfi\n\n/usr/bin/docker  run \\\n"
              ++ unlines (runFlagLines ctx.Service))
      ∧ (g.dockerHostConn = "" →
          (∀ x ∈ serviceTexts ctx.Service, ¬ occursIn "--host" x) →
          ¬ occursIn "--host=" (bashTemplate ctx))
      ∧ (g.dockerHostConn ≠ "" →
          bashTemplate ctx
            = "#!/bin/bash\n/usr/bin/docker " ++ ("--host=" ++ g.dockerHostConn) ++ " pull "
              ++ service.Image
              ++ "\n\nif /usr/bin/docker " ++ ("--host=" ++ g.dockerHostConn)
              ++ " ps | grep --quiet " ++ (g.appName ++ "-" ++ s)
              ++ "_1 ; then\n    /usr/bin/docker " ++ ("--host=" ++ g.dockerHostConn)
              ++ " rm -f " ++ (g.appName ++ "-" ++ s)
              ++ "_1\nfi\n\n/usr/bin/docker " ++ ("--host=" ++ g.dockerHostConn) ++ " run \\\n"
              ++ unlines (runFlagLines ctx.Service)) := by
  refine ⟨_, buildScriptDataTemplate_eq g s service, ?_, ?_, ?_⟩
  · intro h
    rw [bashTemplate_layout]
    simp only [h, if_true]
    apply String.ext
    simp only [String.data_append, List.append_assoc]
    rfl
  · intro h hx
    exact (bashTemplate_closed _ (by simp only [h, if_true]) hx).1
  · intro h
    rw [bashTemplate_layout]
    simp only [h, if_false]

/-- Witness of the amended C6: the service `web` of `myapp`, without and with a
host. -/
theorem bashTemplate_host_fragment_witness :
    (∃ ctx, buildScriptDataTemplate ⟨"myapp", "", ".", ""⟩ "web"
        { Service.zero with Image := "nginx", Links := ["db"] } = some ctx
      ∧ bashTemplate ctx
          = "#!/bin/bash\n/usr/bin/docker  pull " ++ "nginx"
            ++ "\n\nif /usr/bin/docker  ps | grep --quiet " ++ ("myapp" ++ "-" ++ "web")
            ++ "_1 ; then\n    /usr/bin/docker  rm -f " ++ ("myapp" ++ "-" ++ "web")
            ++ "_1\nfi\n\n/usr/bin/docker  run \\\n"
            ++ unlines (runFlagLines ctx.Service)
      ∧ ¬ occursIn "--host=" (bashTemplate ctx))
    ∧ (∃ ctx, buildScriptDataTemplate ⟨"myapp", "", ".", "tcp://h:2375"⟩ "web"
        { Service.zero with Image := "nginx", Links := ["db"] } = some ctx
      ∧ bashTemplate ctx
          = "#!/bin/bash\n/usr/bin/docker " ++ ("--host=" ++ "tcp://h:2375") ++ " pull "
            ++ "nginx"
            ++ "\n\nif /usr/bin/docker " ++ ("--host=" ++ "tcp://h:2375")
            ++ " ps | grep --quiet " ++ ("myapp" ++ "-" ++ "web")
            ++ "_1 ; then\n    /usr/bin/docker " ++ ("--host=" ++ "tcp://h:2375")
            ++ " rm -f " ++ ("myapp" ++ "-" ++ "web")
            ++ "_1\nfi\n\n/usr/bin/docker " ++ ("--host=" ++ "tcp://h:2375") ++ " run \\\n"
            ++ unlines (runFlagLines ctx.Service)) := by
  constructor
  · obtain ⟨ctx, h, h₁, h₂, _⟩ := bashTemplate_host_fragment ⟨"myapp", "", ".", ""⟩ "web"
      { Service.zero with Image := "nginx", Links := ["db"] }
    refine ⟨ctx, h, h₁ rfl, h₂ rfl ?_⟩
    have hc : buildScriptDataTemplate ⟨"myapp", "", ".", ""⟩ "web"
        { Service.zero with Image := "nginx", Links := ["db"] }
        = some ⟨"myapp", "", { Service.zero with
            Name := "myapp-web", Image := "nginx", Links := ["myapp-db_1:db_1"] }⟩ := by
      decide
    rw [hc] at h
    cases h
    decide
  · obtain ⟨ctx, h, _, _, h₃⟩ :=
      bashTemplate_host_fragment ⟨"myapp", "", ".", "tcp://h:2375"⟩ "web"
        { Service.zero with Image := "nginx", Links := ["db"] }
    exact ⟨ctx, h, h₃ (by decide)⟩

/-! ## The link loop, entry by entry -/

theorem splitChars_length_gt_one (sep : Char) (s : List Char) :
    1 < (splitChars sep s).length ↔ sep ∈ s := by
  constructor
  · intro h
    by_contra hn
    rw [splitChars_of_not_mem sep s hn] at h
    simp at h
  · intro h
    obtain ⟨a, b, hab, ha⟩ := List.eq_append_cons_of_mem h
    rw [hab, splitChars_append_sep sep a b ha]
    cases hs : splitChars sep b with
    | nil => exact absurd hs (splitChars_ne_nil _ _)
    | cons q qs => simp

theorem Split_length (e : String) (sep : Char) :
    (Split e sep).length = (splitChars sep e.data).length := by
  simp [Split]

/-- C13: `setLinksWithAppName` keeps the length and the order of the links and
rewrites the entries independently: the entry at index `i` of the result is the
entry the function gives for the input entry at index `i` taken alone, and the
result is the image of the input list under the rewrite of one entry, the body
of the loop. -/
theorem setLinksWithAppName_elementwise (g : Globals) (service : Service) :
    ∃ s, setLinksWithAppName g service = some s
      ∧ s.Links.length = service.Links.length
      ∧ (∀ (i : Nat) (e : String), service.Links[i]? = some e →
          ∃ r, setLinksWithAppName g { service with Links := [e] }
                = some { service with Links := [r] }
            ∧ s.Links[i]? = some r)
      ∧ ∃ f : String → String,
          (∀ e, rewriteLinkEntry g.appName e = some (f e)) ∧ s.Links = service.Links.map f := by
  refine ⟨_, setLinksWithAppName_eq g service, by simp, ?_, rewrittenEntry g.appName,
    rewriteLinkEntry_eq g.appName, rfl⟩
  intro i e he
  refine ⟨rewrittenEntry g.appName e, setLinksWithAppName_eq g _, ?_⟩
  simp [List.getElem?_map, he]

/-- Witness of C13: the links `db` and `a:b` of the application `app`. -/
theorem setLinksWithAppName_elementwise_witness :
    ∃ s, setLinksWithAppName ⟨"app", "", ".", ""⟩ { Service.zero with Links := ["db", "a:b"] }
        = some s
      ∧ s.Links.length = 2
      ∧ (∃ r, setLinksWithAppName ⟨"app", "", ".", ""⟩ { Service.zero with Links := ["a:b"] }
            = some { Service.zero with Links := [r] }
          ∧ s.Links[1]? = some r) := by
  obtain ⟨s, hs, hlen, hat, _⟩ := setLinksWithAppName_elementwise ⟨"app", "", ".", ""⟩
    { Service.zero with Links := ["db", "a:b"] }
  exact ⟨s, hs, hlen, hat 1 "a:b" rfl⟩

/-- C14: `buildScriptDataTemplate` changes the name and the links only: the
context it returns has the application name of the run, and its service has the
image, the ports, the volumes, the privilege flag, the command and the
environment of the input record. -/
theorem buildScriptDataTemplate_frame (g : Globals) (key : String) (service : Service) :
    ∃ ctx, buildScriptDataTemplate g key service = some ctx
      ∧ ctx.AppName = g.appName
      ∧ ctx.Service.Image = service.Image
      ∧ ctx.Service.Ports = service.Ports
      ∧ ctx.Service.Volumes = service.Volumes
      ∧ ctx.Service.Privileged = service.Privileged
      ∧ ctx.Service.Command = service.Command
      ∧ ctx.Service.Environment = service.Environment :=
  ⟨_, buildScriptDataTemplate_eq g key service, rfl, rfl, rfl, rfl, rfl, rfl, rfl⟩

/-- C15: the line of the `run` command between `run \` and `--restart=always`
holds `--privileged=true ` when the service is privileged, and holds blanks and
the line continuation only when it is not. -/
theorem runCommand_privileged (g : Globals) (key : String) (service : Service) :
    ∃ ctx line rest, buildScriptDataTemplate g key service = some ctx
      ∧ runCommand ctx
          = "/usr/bin/docker " ++ ctx.DockerHostConnCmdArg ++ " run \\\n" ++ line
            ++ "\n  --restart=always \\\n" ++ rest
      ∧ (service.Privileged = true → line = "  --privileged=true  \\")
      ∧ (service.Privileged = false → line = "   \\") := by
  refine ⟨_, "  " ++ (if service.Privileged then "--privileged=true " else "") ++ " \\",
    unlines ((runFlagLines { service with
      Name := g.appName ++ "-" ++ key
      Links := service.Links.map (rewrittenEntry g.appName) }).drop 2),
    buildScriptDataTemplate_eq g key service, ?_, ?_, ?_⟩
  · rw [runCommand_eq]
    unfold runFlagLines unlines
    apply String.ext
    simp only [List.map_cons, List.map_nil, concatAll, List.drop_succ_cons, List.drop_zero,
      String.data_append, List.append_assoc]
    simp only [List.cons_append, List.nil_append, List.append_nil]
  · intro h
    rw [h]
    rfl
  · intro h
    rw [h]
    rfl

/-- Witness of C15: a privileged and an unprivileged service `web`. -/
theorem runCommand_privileged_witness :
    (∃ ctx rest, buildScriptDataTemplate ⟨"myapp", "", ".", ""⟩ "web"
          { Service.zero with Image := "nginx", Privileged := true } = some ctx
        ∧ runCommand ctx
            = "/usr/bin/docker " ++ ctx.DockerHostConnCmdArg ++ " run \\\n"
              ++ "  --privileged=true  \\" ++ "\n  --restart=always \\\n" ++ rest)
      ∧ (∃ ctx rest, buildScriptDataTemplate ⟨"myapp", "", ".", ""⟩ "web"
          { Service.zero with Image := "nginx", Privileged := false } = some ctx
        ∧ runCommand ctx
            = "/usr/bin/docker " ++ ctx.DockerHostConnCmdArg ++ " run \\\n"
              ++ "   \\" ++ "\n  --restart=always \\\n" ++ rest) := by
  constructor
  · obtain ⟨ctx, line, rest, h, hr, ht, _⟩ := runCommand_privileged ⟨"myapp", "", ".", ""⟩ "web"
      { Service.zero with Image := "nginx", Privileged := true }
    exact ⟨ctx, rest, h, ht rfl ▸ hr⟩
  · obtain ⟨ctx, line, rest, h, hr, _, hf⟩ := runCommand_privileged ⟨"myapp", "", ".", ""⟩ "web"
      { Service.zero with Image := "nginx", Privileged := false }
    exact ⟨ctx, rest, h, hf rfl ▸ hr⟩

/-! ## Totality and the empty alias -/

theorem Split_ne_nil (e : String) (sep : Char) : Split e sep ≠ [] := by
  intro h
  have := congrArg List.length h
  rw [Split_length] at this
  exact splitChars_ne_nil sep e.data (List.length_eq_zero.1 this)

/-- C16: `setLinksWithAppName` returns for every application name, record and
list of link entries: the split of any entry on `:` has a first piece, so
`links[0]` is in range, `links[1]` is in range whenever `len(links) > 1` lets
it be read, and the loop body yields a new entry. -/
theorem setLinksWithAppName_total (g : Globals) (service : Service) :
    (∃ s, setLinksWithAppName g service = some s)
      ∧ ∀ e : String,
          (∃ c, (Split e ':')[0]? = some c)
          ∧ ((Split e ':').length > 1 → ∃ a, (Split e ':')[1]? = some a)
          ∧ ∃ r, rewriteLinkEntry g.appName e = some r := by
  refine ⟨⟨_, setLinksWithAppName_eq g service⟩, fun e => ⟨?_, ?_, _, rewriteLinkEntry_eq _ e⟩⟩
  · cases h : Split e ':' with
    | nil => exact absurd h (Split_ne_nil e ':')
    | cons c cs => exact ⟨c, by simp⟩
  · intro hlen
    exact ⟨(Split e ':')[1], List.getElem?_eq_getElem hlen⟩

/-- Witness of C16: the empty entry, a lone colon and an entry with many
colons. -/
theorem setLinksWithAppName_total_witness :
    (∃ s, setLinksWithAppName ⟨"app", "", ".", ""⟩
        { Service.zero with Links := ["", ":", "a:b:c:d"] } = some s)
      ∧ (∃ c, (Split "" ':')[0]? = some c)
      ∧ (∃ a, (Split ":" ':')[1]? = some a)
      ∧ (∃ a, (Split "a:b:c:d" ':')[1]? = some a) := by
  obtain ⟨hs, he⟩ := setLinksWithAppName_total ⟨"app", "", ".", ""⟩
    { Service.zero with Links := ["", ":", "a:b:c:d"] }
  exact ⟨hs, (he "").1, (he ":").2.1 (by decide), (he "a:b:c:d").2.1 (by decide)⟩

theorem exists_target_rest (e : String) (h : ':' ∈ e.data) :
    ∃ target rest : String, e = target ++ ":" ++ rest ∧ ':' ∉ target.data := by
  obtain ⟨a, b, hab, ha⟩ := List.eq_append_cons_of_mem h
  refine ⟨String.mk a, String.mk b, ?_, ha⟩
  apply String.ext
  simp [String.data_append, hab]

/-- C17: a link entry `x:` with a colon and an empty alias is rewritten to
`appName + "-" + x + "_1:"` with the empty alias, which is not the entry with
the default alias `x + "_1"`.  The default alias is used exactly when the entry
has no colon: every entry without a colon is rewritten with its own text
followed by `_1` as the alias, and every entry with a colon is rewritten with
the piece of its text after the first colon as the alias; the branch
`len(links) > 1` is taken exactly for the entries with a colon. -/
theorem setLinksWithAppName_empty_alias (g : Globals) (service : Service) (i : Nat)
    (x : String) (he : service.Links[i]? = some (x ++ ":")) (hx : ':' ∉ x.data) :
    ∃ s, setLinksWithAppName g service = some s
      ∧ s.Links[i]? = some (g.appName ++ "-" ++ x ++ "_1:")
      ∧ g.appName ++ "-" ++ x ++ "_1:" ≠ g.appName ++ "-" ++ x ++ "_1:" ++ x ++ "_1"
      ∧ (∀ e : String, ((Split e ':').length > 1 ↔ ':' ∈ e.data))
      ∧ ∀ (j : Nat) (e : String), service.Links[j]? = some e →
          (':' ∉ e.data →
            s.Links[j]? = some (g.appName ++ "-" ++ e ++ "_1:" ++ e ++ "_1"))
          ∧ (':' ∈ e.data →
            ∃ target rest : String, e = target ++ ":" ++ rest ∧ ':' ∉ target.data
              ∧ s.Links[j]?
                  = some (g.appName ++ "-" ++ target ++ "_1:" ++ beforeSep ':' rest)) := by
  obtain ⟨s, hs, hl⟩ := setLinksWithAppName_getElem? g service i _ he
  have hr : rewrittenEntry g.appName (x ++ ":") = g.appName ++ "-" ++ x ++ "_1:" := by
    have h := rewrittenEntry_colon g.appName x "" hx
    have hb : beforeSep ':' "" = "" := rfl
    rw [hb, String.append_empty, String.append_empty] at h
    exact h
  refine ⟨s, hs, hr ▸ hl, ?_, ?_, ?_⟩
  · intro h
    have hlen := congrArg String.length h
    simp only [String.length_append] at hlen
    have : ("_1" : String).length = 2 := rfl
    omega
  · intro e
    rw [Split_length]
    exact splitChars_length_gt_one ':' e.data
  · intro j e hj
    obtain ⟨s', hs', hl'⟩ := setLinksWithAppName_getElem? g service j e hj
    have hss : s' = s := Option.some.inj (hs'.symm.trans hs)
    subst hss
    constructor
    · intro hc
      rw [← rewrittenEntry_no_colon g.appName e hc]
      exact hl'
    · intro hc
      obtain ⟨target, rest, hsplit, ht⟩ := exists_target_rest e hc
      refine ⟨target, rest, hsplit, ht, ?_⟩
      rw [← rewrittenEntry_colon g.appName target rest ht, ← hsplit]
      exact hl'

/-- Witness of C17: the entries `db:`, `db` and `a:b:c` of the application
`app`; the first has the empty alias, the second the default alias `db_1`, the
third the alias `b`. -/
theorem setLinksWithAppName_empty_alias_witness :
    ∃ s, setLinksWithAppName ⟨"app", "", ".", ""⟩
        { Service.zero with Links := ["db:", "db", "a:b:c"] } = some s
      ∧ s.Links[0]? = some ("app" ++ "-" ++ "db" ++ "_1:")
      ∧ s.Links[1]? = some ("app" ++ "-" ++ "db" ++ "_1:" ++ "db" ++ "_1")
      ∧ (∃ target rest : String, "a:b:c" = target ++ ":" ++ rest ∧ ':' ∉ target.data
          ∧ s.Links[2]? = some ("app" ++ "-" ++ target ++ "_1:" ++ beforeSep ':' rest)) := by
  obtain ⟨s, hs, h₀, _, _, hall⟩ :=
    setLinksWithAppName_empty_alias ⟨"app", "", ".", ""⟩
      { Service.zero with Links := ["db:", "db", "a:b:c"] } 0 "db" rfl (by decide)
  exact ⟨s, hs, h₀, (hall 1 "db" rfl).1 (by decide), (hall 2 "a:b:c" rfl).2 (by decide)⟩

/-! ## Cleaned paths -/

theorem splitChars_append (sep : Char) (a b : List Char) :
    splitChars sep (a ++ sep :: b) = splitChars sep a ++ splitChars sep b := by
  induction a with
  | nil => simp [splitChars]
  | cons c cs ih =>
    by_cases hc : c = sep
    · simp [splitChars, hc, ih]
    · cases hs : splitChars sep cs with
      | nil => exact absurd hs (splitChars_ne_nil _ _)
      | cons p ps =>
        rw [hs] at ih
        simp [splitChars, hc, ih, hs]

theorem splitChars_append_last (sep : Char) (P : List Char) :
    ∃ init last, splitChars sep P = init ++ [last]
      ∧ ∀ L, sep ∉ L → splitChars sep (P ++ L) = init ++ [last ++ L] := by
  induction P with
  | nil =>
    exact ⟨[], [], rfl, fun L hL => by simpa using splitChars_of_not_mem sep L hL⟩
  | cons c cs ih =>
    obtain ⟨init, last, hsplit, hall⟩ := ih
    by_cases hc : c = sep
    · refine ⟨[] :: init, last, by simp [splitChars, hc, hsplit], fun L hL => ?_⟩
      simp [splitChars, hc, hall L hL]
    · cases init with
      | nil =>
        refine ⟨[], c :: last, by simp [splitChars, hc, hsplit], fun L hL => ?_⟩
        have := hall L hL
        simp only [List.nil_append] at this
        simp [splitChars, hc, this]
      | cons p ps =>
        refine ⟨(c :: p) :: ps, last, by simp [splitChars, hc, hsplit], fun L hL => ?_⟩
        have := hall L hL
        simp only [List.cons_append] at this
        simp [splitChars, hc, this]

theorem intercalate_go_append (acc s : String) (xs : List String) (y : String) :
    String.intercalate.go acc s (xs ++ [y]) = String.intercalate.go acc s xs ++ s ++ y := by
  induction xs generalizing acc with
  | nil => simp [String.intercalate.go]
  | cons x xs ih => simp [String.intercalate.go, ih]

theorem intercalate_concat (xs : List String) (y : String) :
    "/".intercalate (xs ++ [y]) = dirPrefix xs ++ y := by
  unfold dirPrefix
  cases xs with
  | nil => simp [String.intercalate, String.intercalate.go]
  | cons x xs => simp [String.intercalate, intercalate_go_append]

theorem cleanStep_real (rooted : Bool) (stack : List (List Char)) (e : List Char)
    (h : realElem e) : cleanStep rooted stack e = e :: stack := by
  obtain ⟨h₁, h₂, h₃⟩ := h
  simp [cleanStep, h₁, h₂, h₃]

theorem string_append_cancel_left (a b c : String) (h : a ++ b = a ++ c) : b = c := by
  apply String.ext
  have := congrArg String.data h
  simpa [String.data_append] using this

theorem string_append_cancel_right (a b c : String) (h : a ++ c = b ++ c) : a = b := by
  apply String.ext
  have := congrArg String.data h
  simpa [String.data_append] using this

/-- The cleaned form of a path whose last element is real: the root slash, the
kept earlier elements and the last element. -/
theorem Clean_of_split (p : String) (init : List (List Char)) (e : List Char)
    (hp : p ≠ "") (hs : splitChars '/' p.data = init ++ [e]) (he : realElem e) :
    Clean p
      = (if p.data.head? = some '/' then "/" else "")
        ++ dirPrefix ((init.foldl (cleanStep (p.data.head? = some '/')) []).reverse.map
            String.mk)
        ++ String.mk e := by
  unfold Clean
  simp only [hp, if_false, hs, List.foldl_append, List.foldl_cons, List.foldl_nil]
  rw [cleanStep_real _ _ _ he]
  simp only [List.reverse_cons, List.map_append, List.map_cons, List.map_nil,
    intercalate_concat]
  have hne : ((if p.data.head? = some '/' then "/" else "")
      ++ (dirPrefix ((init.foldl (cleanStep (p.data.head? = some '/')) []).reverse.map
            String.mk) ++ String.mk e) : String) ≠ "" := by
    intro h
    have hlen := congrArg String.length h
    simp only [String.length_append] at hlen
    have h1 : (String.mk e).length = e.length := rfl
    have h2 : ("" : String).length = 0 := rfl
    have h3 : 0 < e.length := List.length_pos.2 he.1
    omega
  rw [if_neg hne, String.append_assoc]

theorem realElem_of_length (e : List Char) (h : 3 ≤ e.length) : realElem e := by
  refine ⟨?_, ?_, ?_⟩ <;> intro he <;> rw [he] at h <;> simp at h

theorem Join_pair (out name : String) (hn : name ≠ "") :
    Join [out, name] = Clean (if out = "" then name else out ++ "/" ++ name) := by
  unfold Join
  by_cases ho : out = ""
  · simp [ho, hn, List.dropWhile, String.intercalate, String.intercalate.go]
  · simp [ho, List.dropWhile, String.intercalate, String.intercalate.go]

/-- Two paths with the same non-empty beginning and slash-free endings of three
characters or more have the same cleaned form only when the endings agree. -/
theorem Clean_prefix_inj (P L₁ L₂ : List Char) (hP : P ≠ [])
    (h₁ : '/' ∉ L₁) (h₂ : '/' ∉ L₂) (hl₁ : 3 ≤ L₁.length) (hl₂ : 3 ≤ L₂.length)
    (h : Clean (String.mk (P ++ L₁)) = Clean (String.mk (P ++ L₂))) : L₁ = L₂ := by
  obtain ⟨init, last, _, hall⟩ := splitChars_append_last '/' P
  have hne : ∀ L : List Char, String.mk (P ++ L) ≠ "" := by
    intro L hL
    have := congrArg String.data hL
    cases P with
    | nil => exact hP rfl
    | cons c cs => simp at this
  have hhead : ∀ L : List Char, (String.mk (P ++ L)).data.head? = P.head? := by
    intro L
    cases P with
    | nil => exact absurd rfl hP
    | cons c cs => rfl
  have hc₁ := Clean_of_split (String.mk (P ++ L₁)) init (last ++ L₁) (hne L₁) (hall L₁ h₁)
    (realElem_of_length _ (by simp; omega))
  have hc₂ := Clean_of_split (String.mk (P ++ L₂)) init (last ++ L₂) (hne L₂) (hall L₂ h₂)
    (realElem_of_length _ (by simp; omega))
  rw [hhead] at hc₁ hc₂
  rw [hc₁, hc₂] at h
  have := congrArg String.data (string_append_cancel_left _ _ _ h)
  simpa using this

theorem Join_key_inj (out app s₁ s₂ : String) (h₁ : '/' ∉ s₁.data) (h₂ : '/' ∉ s₂.data)
    (h : Join [out, app ++ "-" ++ s₁ ++ ".1.sh"] = Join [out, app ++ "-" ++ s₂ ++ ".1.sh"]) :
    s₁ = s₂ := by
  have hn : ∀ s : String, app ++ "-" ++ s ++ ".1.sh" ≠ "" := by
    intro s hs
    have := congrArg String.length hs
    simp only [String.length_append] at this
    have h5 : (".1.sh" : String).length = 5 := rfl
    have h0 : ("" : String).length = 0 := rfl
    omega
  rw [Join_pair _ _ (hn s₁), Join_pair _ _ (hn s₂)] at h
  have htail : ∀ s : String, '/' ∉ s.data → '/' ∉ s.data ++ (".1.sh" : String).data := by
    intro s hs m
    rcases List.mem_append.1 m with m | m
    · exact hs m
    · revert m
      decide
  have hlen : ∀ s : String, 3 ≤ (s.data ++ (".1.sh" : String).data).length := by
    intro s
    have : (".1.sh" : String).data.length = 5 := rfl
    rw [List.length_append]
    omega
  have hshape : ∀ s : String,
      (if out = "" then app ++ "-" ++ s ++ ".1.sh" else out ++ "/" ++ (app ++ "-" ++ s ++ ".1.sh"))
        = String.mk (((if out = "" then [] else out.data ++ ['/']) ++ app.data ++ ['-'])
            ++ (s.data ++ (".1.sh" : String).data)) := by
    intro s
    apply String.ext
    by_cases ho : out = ""
    · simp [ho, String.data_append]
    · simp [ho, String.data_append]
  rw [hshape s₁, hshape s₂] at h
  have := Clean_prefix_inj _ _ _ (by simp) (htail s₁ h₁) (htail s₂ h₂) (hlen s₁) (hlen s₂) h
  exact String.ext (List.append_cancel_right this)

theorem cleanStep_kept (rooted : Bool) (stack : List (List Char)) (e : List Char)
    (he : '/' ∉ e) (hs : ∀ x ∈ stack, keptElem x) :
    ∀ x ∈ cleanStep rooted stack e, keptElem x := by
  unfold cleanStep
  by_cases h₁ : e = [] ∨ e = ['.']
  · simpa [h₁] using hs
  · have hkept : keptElem e := ⟨fun h => h₁ (Or.inl h), fun h => h₁ (Or.inr h), he⟩
    by_cases h₂ : e = ['.', '.']
    · cases stack with
      | nil =>
        cases rooted
        · intro x hx
          simp only [h₁, h₂, if_false, if_true] at hx
          simp at hx
          rw [hx, ← h₂]
          exact hkept
        · intro x hx
          simp [h₁, h₂] at hx
      | cons top rest =>
        by_cases h₃ : top = ['.', '.']
        · intro x hx
          simp only [h₁, h₂, h₃, if_false, if_true] at hx
          rcases List.mem_cons.1 hx with hx | hx
          · rw [hx, ← h₂]
            exact hkept
          · exact hs x (by rw [h₃]; exact hx)
        · intro x hx
          simp only [h₁, h₂, h₃, if_false, if_true] at hx
          exact hs x (List.mem_cons_of_mem _ hx)
    · intro x hx
      simp only [h₁, h₂, if_false] at hx
      rcases List.mem_cons.1 hx with hx | hx
      · rw [hx]
        exact hkept
      · exact hs x hx

theorem foldl_cleanStep_kept (rooted : Bool) (pieces stack : List (List Char))
    (hp : ∀ e ∈ pieces, '/' ∉ e) (hs : ∀ x ∈ stack, keptElem x) :
    ∀ x ∈ pieces.foldl (cleanStep rooted) stack, keptElem x := by
  induction pieces generalizing stack with
  | nil => simpa using hs
  | cons e es ih =>
    simp only [List.foldl_cons]
    exact ih _ (fun x hx => hp x (List.mem_cons_of_mem _ hx))
      (cleanStep_kept rooted stack e (hp e (List.mem_cons_self _ _)) hs)

theorem intercalate_go_shape (acc : String) (xs : List String) :
    ∃ t, String.intercalate.go acc "/" xs = acc ++ t ∧ (xs = [] → t = "")
      ∧ (xs ≠ [] → 1 ≤ t.length) := by
  induction xs generalizing acc with
  | nil => exact ⟨"", by simp [String.intercalate.go], fun _ => rfl, fun h => absurd rfl h⟩
  | cons x xs ih =>
    obtain ⟨t, ht, _, _⟩ := ih (acc ++ "/" ++ x)
    refine ⟨"/" ++ x ++ t, ?_, fun h => by simp at h, fun _ => ?_⟩
    · simp only [String.intercalate.go, ht]
      simp only [String.append_assoc]
    · simp only [String.length_append]
      have : ("/" : String).length = 1 := rfl
      omega

theorem length_pos_of_kept (x : String) (h : keptElem x.data) : 1 ≤ x.length :=
  List.length_pos.2 h.1

theorem inDir_of_dirs (root : String) (hroot : root = "" ∨ root = "/") (dirs : List String)
    (hk : ∀ x ∈ dirs, keptElem x.data) (name : String) :
    root ++ dirPrefix dirs ++ name
      = inDir (if root ++ "/".intercalate dirs = "" then "." else root ++ "/".intercalate dirs)
          name := by
  have hlen0 : ("" : String).length = 0 := rfl
  have hlen1 : ("/" : String).length = 1 := rfl
  have hlen2 : ("." : String).length = 1 := rfl
  cases dirs with
  | nil =>
    rcases hroot with h | h <;> subst h
    · simp [dirPrefix, String.intercalate, inDir]
    · have h₁ : ("/" : String) ≠ "" := by decide
      have h₂ : ("/" : String) ≠ "." := by decide
      simp only [dirPrefix, String.intercalate, inDir, if_true, h₁, h₂, if_false,
        String.append_empty]
  | cons x rest =>
    obtain ⟨t, ht, hnil, hcons⟩ := intercalate_go_shape x rest
    have hx := hk x (List.mem_cons_self _ _)
    have hxl := length_pos_of_kept x hx
    have hint : "/".intercalate (x :: rest) = x ++ t := by
      simp only [String.intercalate, ht]
    have hne : ∀ c : String, c.length ≤ 1 → (c = x → False) → root ++ (x ++ t) ≠ c := by
      intro c hc hcx h
      have hl := congrArg String.length h
      simp only [String.length_append] at hl
      rcases hroot with hr | hr
      · subst hr
        by_cases hrest : rest = []
        · have ht' := hnil hrest
          subst ht'
          rw [String.empty_append, String.append_empty] at h
          exact hcx h.symm
        · have := hcons hrest
          omega
      · subst hr
        omega
    have h₁ : root ++ (x ++ t) ≠ "" := hne "" (by decide) (fun h => hx.1 (by rw [← h]))
    have h₂ : root ++ (x ++ t) ≠ "." := hne "." (by decide) (fun h => hx.2.1 (by rw [← h]))
    have h₃ : root ++ (x ++ t) ≠ "/" :=
      hne "/" (by decide) (fun h => hx.2.2 (by rw [← h]; decide))
    have hd : dirPrefix (x :: rest) = x ++ t ++ "/" := by
      simp only [dirPrefix, hint]
      simp
    rw [hint, hd]
    simp only [inDir, h₁, h₂, h₃, if_false]
    simp only [String.append_assoc]

theorem Clean_eq_stack (p : String) (hp : p ≠ "") :
    Clean p
      = (if (if p.data.head? = some '/' then "/" else "")
            ++ "/".intercalate (((splitChars '/' p.data).foldl
                (cleanStep (p.data.head? = some '/')) []).reverse.map String.mk) = ""
          then "."
          else (if p.data.head? = some '/' then "/" else "")
            ++ "/".intercalate (((splitChars '/' p.data).foldl
                (cleanStep (p.data.head? = some '/')) []).reverse.map String.mk)) := by
  unfold Clean
  simp only [hp, if_false]

/-- A slash-free name of three characters or more, joined to an output
directory, is the file of that name directly inside the cleaned directory. -/
theorem Join_inDir (out name : String) (hn : '/' ∉ name.data) (hl : 3 ≤ name.data.length) :
    Join [out, name] = inDir (Clean out) name := by
  have hreal : realElem name.data := realElem_of_length _ hl
  have hne : name ≠ "" := fun h => hreal.1 (by rw [h])
  rw [Join_pair out name hne]
  by_cases ho : out = ""
  · subst ho
    have hs : splitChars '/' name.data = [] ++ [name.data] := splitChars_of_not_mem _ _ hn
    have hhead : ¬ name.data.head? = some '/' := by
      intro h
      obtain ⟨ys, hys⟩ := List.head?_eq_some_iff.1 h
      exact hn (by rw [hys]; simp)
    have hc := Clean_of_split name [] name.data hne hs hreal
    simp only [if_true, hc, hhead, if_false, List.foldl_nil, List.reverse_nil, List.map_nil]
    have hclean : Clean "" = "." := by decide
    simp [hclean, inDir, dirPrefix]
  · simp only [ho, if_false]
    have hod : out.data ≠ [] := fun h => ho (String.ext h)
    have hq : (out ++ "/" ++ name).data = out.data ++ '/' :: name.data := by
      simp [String.data_append]
    have hqne : out ++ "/" ++ name ≠ "" := by
      intro h
      have := congrArg String.data h
      rw [hq] at this
      simp at this
    have hs : splitChars '/' (out ++ "/" ++ name).data
        = splitChars '/' out.data ++ [name.data] := by
      rw [hq, splitChars_append, splitChars_of_not_mem _ _ hn]
    have hhead : (out ++ "/" ++ name).data.head? = out.data.head? := by
      rw [hq]
      cases hd : out.data with
      | nil => exact absurd hd hod
      | cons c cs => rfl
    have hc := Clean_of_split (out ++ "/" ++ name) _ name.data hqne hs hreal
    rw [hhead] at hc
    rw [hc, Clean_eq_stack out ho]
    have hk : ∀ x ∈ ((splitChars '/' out.data).foldl
        (cleanStep (out.data.head? = some '/')) []).reverse.map String.mk,
        keptElem x.data := by
      intro x hx
      obtain ⟨e, he, hex⟩ := List.mem_map.1 hx
      rw [← hex]
      exact foldl_cleanStep_kept _ _ [] (fun p hp => not_mem_of_mem_splitChars '/' _ p hp)
        (fun y hy => by cases hy) e (List.mem_reverse.1 he)
    exact inDir_of_dirs _ (by by_cases h : out.data.head? = some '/' <;> simp [h]) _ hk name

/-! ## The files the emitter writes -/

/-- One iteration of the loop of `saveToBash` on the file system. -/
theorem saveLoop_cons (g : Globals) (fs : FileSystem) (name : String) (service : Service)
    (rest : List (String × Service)) :
    ∃ ctx fs₁, buildScriptDataTemplate g name service = some ctx
      ∧ saveLoop g fs ((name, service) :: rest) = saveLoop g fs₁ rest
      ∧ fs₁.canCreate = fs.canCreate ∧ fs₁.canWrite = fs.canWrite
      ∧ (∀ x ∈ fs.files, x ∈ fs₁.files)
      ∧ (fs.canCreate (Join [g.outputPath, g.appName ++ "-" ++ name ++ ".1.sh"]) = true →
          fs.canWrite (Join [g.outputPath, g.appName ++ "-" ++ name ++ ".1.sh"]) = true →
          (Join [g.outputPath, g.appName ++ "-" ++ name ++ ".1.sh"], bashTemplate ctx)
            ∈ fs₁.files) := by
  refine ⟨_,
    (execute (osCreate fs (Join [g.outputPath, g.appName ++ "-" ++ name ++ ".1.sh"])).1
      (osCreate fs (Join [g.outputPath, g.appName ++ "-" ++ name ++ ".1.sh"])).2.1
      { AppName := g.appName
        DockerHostConnCmdArg :=
          if g.dockerHostConn = "" then "" else "--host=" ++ g.dockerHostConn
        Service :=
          { service with
            Name := g.appName ++ "-" ++ name
            Links := service.Links.map (rewrittenEntry g.appName) } }).1,
    buildScriptDataTemplate_eq g name service, ?_, ?_, ?_, ?_, ?_⟩
  · simp only [saveLoop, buildScriptDataTemplate_eq, Option.bind_eq_bind, Option.some_bind]
  all_goals
    by_cases hc : fs.canCreate (Join [g.outputPath, g.appName ++ "-" ++ name ++ ".1.sh"]) = true
    · by_cases hw :
          fs.canWrite (Join [g.outputPath, g.appName ++ "-" ++ name ++ ".1.sh"]) = true
      · simp +contextual [osCreate, execute, hc, hw]
      · simp +contextual [osCreate, execute, hc, hw]
    · simp [osCreate, execute, hc]

theorem saveLoop_keeps (g : Globals) (services : List (String × Service)) (fs : FileSystem) :
    ∃ fs', saveLoop g fs services = some fs'
      ∧ fs'.canCreate = fs.canCreate ∧ fs'.canWrite = fs.canWrite
      ∧ ∀ x ∈ fs.files, x ∈ fs'.files := by
  induction services generalizing fs with
  | nil => exact ⟨fs, rfl, rfl, rfl, fun _ h => h⟩
  | cons p rest ih =>
    obtain ⟨name, service⟩ := p
    obtain ⟨_, fs₁, _, hstep, hcc, hcw, hfiles, _⟩ := saveLoop_cons g fs name service rest
    obtain ⟨fs', hrest, hcc', hcw', hfiles'⟩ := ih fs₁
    exact ⟨fs', hstep.trans hrest, hcc'.trans hcc, hcw'.trans hcw,
      fun x hx => hfiles' x (hfiles x hx)⟩

theorem saveLoop_writes (g : Globals) (services : List (String × Service)) (fs : FileSystem)
    (s : String) (service : Service) (hmem : (s, service) ∈ services)
    (hc : fs.canCreate (Join [g.outputPath, g.appName ++ "-" ++ s ++ ".1.sh"]) = true)
    (hw : fs.canWrite (Join [g.outputPath, g.appName ++ "-" ++ s ++ ".1.sh"]) = true) :
    ∃ fs' ctx, saveLoop g fs services = some fs'
      ∧ buildScriptDataTemplate g s service = some ctx
      ∧ (Join [g.outputPath, g.appName ++ "-" ++ s ++ ".1.sh"], bashTemplate ctx)
          ∈ fs'.files := by
  induction services generalizing fs with
  | nil => cases hmem
  | cons p rest ih =>
    obtain ⟨name, sv⟩ := p
    obtain ⟨ctx, fs₁, hctx, hstep, hcc, hcw, _, hwrite⟩ := saveLoop_cons g fs name sv rest
    rcases List.mem_cons.1 hmem with heq | hin
    · cases heq
      obtain ⟨fs', hrest, _, _, hfiles'⟩ := saveLoop_keeps g rest fs₁
      exact ⟨fs', ctx, hstep.trans hrest, hctx, hfiles' _ (hwrite hc hw)⟩
    · obtain ⟨fs', ctx', hrest, hctx', hfile⟩ :=
        ih fs₁ hin (by rw [hcc]; exact hc) (by rw [hcw]; exact hw)
      exact ⟨fs', ctx', hstep.trans hrest, hctx', hfile⟩

theorem name_length (app s : String) : 3 ≤ (app ++ "-" ++ s ++ ".1.sh").data.length := by
  simp only [String.data_append, List.length_append, List.length_cons, List.length_nil]
  omega

theorem name_no_slash (app s : String) (ha : '/' ∉ app.data) (hs : '/' ∉ s.data) :
    '/' ∉ (app ++ "-" ++ s ++ ".1.sh").data := by
  simp only [String.data_append, List.mem_append, not_or]
  exact ⟨⟨⟨ha, by decide⟩, hs⟩, by decide⟩

/-- C11, as stated, fails for the output files: the keys `a/b` and `a//b`
differ and so do their names, but `path.Join` cleans both file names to the
path `out/app-a/b.1.sh`. -/
theorem distinct_keys_share_output_path :
    ¬ ∀ (g : Globals) (s₁ s₂ : String) (sv₁ sv₂ : Service) (c₁ c₂ : ScriptDataTemplate),
        s₁ ≠ s₂ →
        buildScriptDataTemplate g s₁ sv₁ = some c₁ →
        buildScriptDataTemplate g s₂ sv₂ = some c₂ →
        c₁.Service.Name ≠ c₂.Service.Name
          ∧ Join [g.outputPath, c₁.Service.Name ++ ".1.sh"]
              ≠ Join [g.outputPath, c₂.Service.Name ++ ".1.sh"] := by
  intro h
  have hne : ("a/b" : String) ≠ "a//b" := by decide
  have h' := h ⟨"app", "docker-compose.yml", "out", ""⟩ "a/b" "a//b" Service.zero Service.zero
    _ _ hne (buildScriptDataTemplate_eq _ _ _) (buildScriptDataTemplate_eq _ _ _)
  have hsame : Join ["out", "app" ++ "-" ++ "a/b" ++ ".1.sh"]
      = Join ["out", "app" ++ "-" ++ "a//b" ++ ".1.sh"] := by decide
  exact h'.2 hsame

/-- C11, amended: for a fixed application name the names `buildScriptDataTemplate`
gives to two different keys differ, and so do the container names (the name
followed by `_1`) and the file names (the name followed by `.1.sh`); the output
paths `path.Join` makes of them differ whenever neither key has a slash. -/
theorem buildScriptDataTemplate_name_injective (g : Globals) (s₁ s₂ : String)
    (sv₁ sv₂ : Service) (h : s₁ ≠ s₂) :
    ∃ c₁ c₂, buildScriptDataTemplate g s₁ sv₁ = some c₁
      ∧ buildScriptDataTemplate g s₂ sv₂ = some c₂
      ∧ c₁.Service.Name ≠ c₂.Service.Name
      ∧ c₁.Service.Name ++ "_1" ≠ c₂.Service.Name ++ "_1"
      ∧ c₁.Service.Name ++ ".1.sh" ≠ c₂.Service.Name ++ ".1.sh"
      ∧ ('/' ∉ s₁.data → '/' ∉ s₂.data →
          Join [g.outputPath, c₁.Service.Name ++ ".1.sh"]
            ≠ Join [g.outputPath, c₂.Service.Name ++ ".1.sh"]) := by
  have hname : g.appName ++ "-" ++ s₁ ≠ g.appName ++ "-" ++ s₂ :=
    fun e => h (string_append_cancel_left _ _ _ e)
  refine ⟨_, _, buildScriptDataTemplate_eq g s₁ sv₁, buildScriptDataTemplate_eq g s₂ sv₂,
    hname, fun e => hname (string_append_cancel_right _ _ _ e),
    fun e => hname (string_append_cancel_right _ _ _ e), ?_⟩
  intro h₁ h₂ e
  exact h (Join_key_inj g.outputPath g.appName s₁ s₂ h₁ h₂ e)

/-- Witness of the amended C11: the keys `web` and `db` of the application
`myapp`. -/
theorem buildScriptDataTemplate_name_injective_witness :
    ∃ c₁ c₂, buildScriptDataTemplate ⟨"myapp", "", "out", ""⟩ "web" Service.zero = some c₁
      ∧ buildScriptDataTemplate ⟨"myapp", "", "out", ""⟩ "db" Service.zero = some c₂
      ∧ c₁.Service.Name ≠ c₂.Service.Name
      ∧ Join ["out", c₁.Service.Name ++ ".1.sh"] ≠ Join ["out", c₂.Service.Name ++ ".1.sh"] := by
  have hne : ("web" : String) ≠ "db" := by decide
  obtain ⟨c₁, c₂, h₁, h₂, hn, _, _, hp⟩ :=
    buildScriptDataTemplate_name_injective ⟨"myapp", "", "out", ""⟩ "web" "db"
      Service.zero Service.zero hne
  exact ⟨c₁, c₂, h₁, h₂, hn, hp (by decide) (by decide)⟩

/-- C12, as stated, fails: for the key `a/../../b` the script is written to
`b.1.sh`, which is neither the path `out/app-a/../../b.1.sh` nor a path inside
the output directory `out`. -/
theorem saveToBash_path_escapes :
    (saveToBash ⟨"app", "docker-compose.yml", "out", ""⟩ ⟨fun _ => true, fun _ => true, []⟩
        [("a/../../b", Service.zero)]).map (fun r => r.1.files.map Prod.fst)
      = some ["b.1.sh", "b.1.sh"]
      ∧ ("b.1.sh" : String) ≠ "out" ++ "/" ++ "app" ++ "-" ++ "a/../../b" ++ ".1.sh"
      ∧ ¬ ("out/" : String).data <+: ("b.1.sh" : String).data := by
  refine ⟨by decide, by decide, by decide⟩

/-- C12, amended: for every service key `s`, `saveToBash` writes the script of
that service to the path `path.Join(outputPath, appName + "-" + s + ".1.sh")`,
when the file system lets it create and write that file; when neither the
application name nor the key has a slash, this path is the file
`appName-s.1.sh` directly inside the cleaned output directory. -/
theorem saveToBash_path (g : Globals) (fs : FileSystem) (services : List (String × Service))
    (s : String) (service : Service) (hmem : (s, service) ∈ services)
    (hc : fs.canCreate (Join [g.outputPath, g.appName ++ "-" ++ s ++ ".1.sh"]) = true)
    (hw : fs.canWrite (Join [g.outputPath, g.appName ++ "-" ++ s ++ ".1.sh"]) = true) :
    ∃ fs' ctx, saveToBash g fs services = some (fs', none)
      ∧ buildScriptDataTemplate g s service = some ctx
      ∧ (Join [g.outputPath, g.appName ++ "-" ++ s ++ ".1.sh"], bashTemplate ctx) ∈ fs'.files
      ∧ ('/' ∉ g.appName.data → '/' ∉ s.data →
          Join [g.outputPath, g.appName ++ "-" ++ s ++ ".1.sh"]
            = inDir (Clean g.outputPath) (g.appName ++ "-" ++ s ++ ".1.sh")) := by
  obtain ⟨fs', ctx, hloop, hctx, hfile⟩ := saveLoop_writes g services fs s service hmem hc hw
  refine ⟨fs', ctx, by simp [saveToBash, parseBashTemplate, hloop], hctx, hfile, ?_⟩
  intro ha hs
  exact Join_inDir _ _ (name_no_slash _ _ ha hs) (name_length _ _)

/-- Witness of the amended C12: the service `web` of `myapp` and the output
directory `out/`, where every file can be created and written. -/
theorem saveToBash_path_witness :
    ∃ fs' ctx, saveToBash ⟨"myapp", "docker-compose.yml", "out/", ""⟩
          ⟨fun _ => true, fun _ => true, []⟩ [("web", { Service.zero with Image := "nginx" })]
        = some (fs', none)
      ∧ buildScriptDataTemplate ⟨"myapp", "docker-compose.yml", "out/", ""⟩ "web"
          { Service.zero with Image := "nginx" } = some ctx
      ∧ (Join ["out/", "myapp" ++ "-" ++ "web" ++ ".1.sh"], bashTemplate ctx) ∈ fs'.files
      ∧ Join ["out/", "myapp" ++ "-" ++ "web" ++ ".1.sh"]
          = inDir (Clean "out/") ("myapp" ++ "-" ++ "web" ++ ".1.sh")
      ∧ inDir (Clean "out/") ("myapp" ++ "-" ++ "web" ++ ".1.sh") = "out/myapp-web.1.sh" := by
  obtain ⟨fs', ctx, h, hctx, hfile, hdir⟩ :=
    saveToBash_path ⟨"myapp", "docker-compose.yml", "out/", ""⟩
      ⟨fun _ => true, fun _ => true, []⟩ [("web", { Service.zero with Image := "nginx" })]
      "web" { Service.zero with Image := "nginx" } (List.mem_singleton.2 rfl) rfl rfl
  exact ⟨fs', ctx, h, hctx, hfile, hdir (by decide) (by decide), by decide⟩

end Fig2Bash
